import Mathlib

/-!
# Verification of the riichi-rs hand decomposer and round engine

This file embeds, in Lean 4, the parts of the `riichi` crate needed to settle
the specification claims: the regular-hand decomposer
(`src/riichi/src/analysis/decomp.rs`), the action validator
(`src/riichi/src/engine/action.rs`), the turn-transition and round-end
functions (`src/riichi/src/engine/step.rs`), and the engine utilities
(`src/riichi/src/engine/utils.rs`).

The crate's low-level tile values and the precomputed decomposition tables
live outside the provided sources (`riichi_decomp_table`, `crate::common`,
`crate::model`); where they are needed they are modelled from the
specification, and each such definition is marked `Modelled from the spec:`.
-/

namespace Riichi

/-- Octal digit `i` of a packed suit key: the tile count at rank index `i`
within that suit (the `TileSet34::packed` encoding described by the spec:
"a non-negative integer packing, per tile rank within a suit, a small
count (0-4)"). -/
def digit (k i : Nat) : Nat := k / 8 ^ i % 8

/-- Modelled from the spec: a tile is one of 34 normalized kinds
("an immutable value identifying one of 34 normalized kinds").  Encoding
`0..=8` are the first numeral suit's ranks 1-9, `9..=17` and `18..=26` the
other two numeral suits, `27..=33` the seven non-numeral (honor) kinds. -/
structure Tile where
  enc : Nat
  lt : enc < 34

instance : DecidableEq Tile := fun a b =>
  decidable_of_iff (a.enc = b.enc) (by cases a; cases b; simp)

/-- Source `Tile::from_encoding` — modelled from the spec: the tile with the given
encoding, when in range. -/
def Tile.from_encoding (n : Nat) : Option Tile :=
  if h : n < 34 then some ⟨n, h⟩ else none

/-- Source `Tile::MIN` — the smallest tile (encoding 0), used as a dummy value. -/
def Tile.MIN : Tile := ⟨0, by omega⟩

/-- Modelled from the spec: the within-suit successor of a numeral tile.
Per the spec's edge policy, a run-forming neighbor exists only "within the
1-9 numeral range", so rank 9 tiles and non-numeral tiles have none. -/
def Tile.succ (t : Tile) : Option Tile :=
  if h : t.enc < 27 ∧ t.enc % 9 < 8 then some ⟨t.enc + 1, by omega⟩ else none

/-- Modelled from the spec: the tile two ranks above, within the same
numeral suit's 1-9 range. -/
def Tile.succ2 (t : Tile) : Option Tile :=
  if h : t.enc < 27 ∧ t.enc % 9 < 7 then some ⟨t.enc + 2, by omega⟩ else none

/-- Modelled from the spec: the within-suit predecessor of a numeral tile,
within the 1-9 numeral range. -/
def Tile.pred (t : Tile) : Option Tile :=
  if h : t.enc < 27 ∧ t.enc % 9 > 0 then some ⟨t.enc - 1, by omega⟩ else none

/-- Source `WaitingKind` (from the `riichi_decomp_table` crate, not among the
provided sources) — modelled from the spec: "a waiting-kind tag
(single-tile wait, triplet-style wait, closed/open two-sided run wait
variants)". -/
inductive WaitingKind where
  | Tanki
  | Shanpon
  | Kanchan
  | RyanmenHigh
  | RyanmenLow
  | RyanmenBoth
deriving DecidableEq

/-- Modelled from the spec: whether this waiting kind is run-based
("A non-numeral suit may never contribute a run-based group or a run-based
wait"): every kind except the single-tile (Tanki) and triplet-style
(Shanpon) waits. -/
def WaitingKind.is_shuntsu : WaitingKind → Bool
  | .Tanki => false
  | .Shanpon => false
  | _ => true

/-- A complete group within one suit, at rank index `pos` (0-based):
either a triplet (koutsu) or a run `pos, pos+1, pos+2` (shuntsu). -/
inductive SuitGroup where
  | koutsu (pos : Nat)
  | shuntsu (pos : Nat)
deriving DecidableEq

/-- Source `CompleteGrouping` (from the `riichi_decomp_table` crate, not among the
provided sources) — modelled from the spec: "an immutable decomposition of
a key's tiles into zero or more complete groups (triplet or run) plus at
most one pair"; the raw bit-packed group bytes are modelled as a list. -/
structure CompleteGrouping where
  groups : List SuitGroup
  pair : Option Nat
deriving DecidableEq

def CompleteGrouping.has_shuntsu (c : CompleteGrouping) : Bool :=
  c.groups.any fun g => match g with
    | .shuntsu _ => true
    | .koutsu _ => false

def CompleteGrouping.num_groups (c : CompleteGrouping) : Nat := c.groups.length

/-- Source `WaitingPattern` (from the `riichi_decomp_table` crate, not among the
provided sources) — modelled from the spec: "which tile, positioned where,
completes it, together with the key of the still-complete portion". -/
structure WaitingPattern where
  pattern_pos : Nat
  complete_key : Nat
  waiting_kind : WaitingKind
deriving DecidableEq

/-- The Grouping Table, modelled from the spec as a finite key-indexed
mapping ("a read-only mapping from a suit key to every way that key's
tiles decompose into complete groups plus an optional leftover pair");
`c_iter` below plays the role of `CTable::get` + `c_entry_iter`. -/
abbrev CTable := List (Nat × List CompleteGrouping)

/-- The Waiting Table, modelled from the spec as a finite key-indexed
mapping ("maps a suit key representing a 3N+1-shaped remainder to every
almost-complete pattern"). -/
abbrev WTable := List (Nat × List WaitingPattern)

/-- Source `c_iter`: all complete groupings of a suit key (empty when the key has
none). -/
def c_iter (t : CTable) (k : Nat) : List CompleteGrouping :=
  match t.lookup k with
  | some v => v
  | none => []

/-- Source `c_iter_z`: complete groupings of the non-numeral suit's key — run-based
groupings filtered out. -/
def c_iter_z (t : CTable) (k : Nat) : List CompleteGrouping :=
  (c_iter t k).filter fun x => !x.has_shuntsu

/-- Source `w_iter`: all waiting patterns recorded for a suit key. -/
def w_iter (t : WTable) (k : Nat) : List WaitingPattern :=
  match t.lookup k with
  | some v => v
  | none => []

/-- Source `HandGroup` (from `crate::common`, not among the provided sources) —
a complete group over absolute tile encodings (`9 * suit + pos`). -/
inductive HandGroup where
  | Koutsu (enc : Nat)
  | Shuntsu (enc : Nat)
deriving DecidableEq

/-- Turns a within-suit group into an absolute one; this is the
`g | (suit << 4)` re-basing performed by `extend_groups`. -/
def toHandGroup (suit : Nat) : SuitGroup → HandGroup
  | .koutsu p => .Koutsu (9 * suit + p)
  | .shuntsu p => .Shuntsu (9 * suit + p)

/-- Source `RegularWait`: "a regular waiting pattern and hand decomposition of a
waiting hand".  The source packs the complete groups into a `u32`
(`raw_groups`/`num_groups`); per the spec's design note this bit-packing is
modelled as a list (most recently added group first, matching the
`(gs << 8) | g` fold). -/
structure RegularWait where
  groups : List HandGroup
  pair : Option Tile
  waiting_kind : WaitingKind
  pattern_tile : Tile
  waiting_tile : Tile
deriving DecidableEq

def RegularWait.num_groups (self : RegularWait) : Nat := self.groups.length

/-- Source `RegularWait::has_pair_or_tanki`. -/
def RegularWait.has_pair_or_tanki (self : RegularWait) : Bool :=
  self.pair.isSome || self.waiting_kind == WaitingKind.Tanki

/-- Source `RegularWait::pair_or_tanki`. -/
def RegularWait.pair_or_tanki (self : RegularWait) : Option Tile :=
  match self.pair with
  | some p => some p
  | none => if self.waiting_kind == WaitingKind.Tanki then some self.waiting_tile else none

/-- Source `RegularWait::from_waiting_pattern`: seed an empty decomposition from
one waiting pattern of the waiting suit; the non-numeral suit refuses
run-based waits.  (The source's `.unwrap()` on the tile encoding is
modelled as `none` on out-of-range input.) -/
def RegularWait.from_waiting_pattern (suit : Nat) (w : WaitingPattern) : Option RegularWait :=
  if suit == 3 && w.waiting_kind.is_shuntsu then none
  else
    match Tile.from_encoding (w.pattern_pos + 9 * suit) with
    | some pt =>
      some { groups := [], pair := none, waiting_kind := w.waiting_kind,
             pattern_tile := pt, waiting_tile := Tile.MIN }
    | none => none

/-- Source `extend_groups`: fold a suit's complete groups into the accumulated
group collection (`(gs << 8) | (g | (suit << 4))` — newest group in the
lowest byte, i.e. at the front of the list). -/
def extend_groups (groups : List HandGroup) (suit : Nat) (c : CompleteGrouping) :
    List HandGroup :=
  c.groups.foldl (fun gs g => toHandGroup suit g :: gs) groups

/-- Source `extend_pair`: keep the existing pair, otherwise take the new suit's
pair re-based to an absolute tile (`m + suit * 9`); an out-of-range
encoding yields no pair, as in the source's `and_then`. -/
def extend_pair (pair : Option Tile) (suit : Nat) (c : CompleteGrouping) : Option Tile :=
  match pair with
  | some p => some p
  | none =>
    match c.pair with
    | some m => Tile.from_encoding (m + suit * 9)
    | none => none

/-- Source `RegularWait::try_extend`: add one suit's complete grouping, rejecting
a second pair and rejecting run-based groups in the non-numeral suit. -/
def RegularWait.try_extend (self : RegularWait) (suit : Nat) (c : CompleteGrouping) :
    Option RegularWait :=
  if (self.has_pair_or_tanki && c.pair.isSome) || (suit == 3 && c.has_shuntsu) then none
  else
    some { self with groups := extend_groups self.groups suit c,
                     pair := extend_pair self.pair suit c }

/-- Source `RegularWait::waiting_tile_low`. -/
def RegularWait.waiting_tile_low (self : RegularWait) : Option Tile :=
  match self.waiting_kind with
  | .Tanki => some self.pattern_tile
  | .Shanpon => some self.pattern_tile
  | .Kanchan => self.pattern_tile.succ
  | .RyanmenHigh => none
  | .RyanmenLow => self.pattern_tile.pred
  | .RyanmenBoth => self.pattern_tile.pred

/-- Source `RegularWait::waiting_tile_high`. -/
def RegularWait.waiting_tile_high (self : RegularWait) : Option Tile :=
  match self.waiting_kind with
  | .RyanmenHigh => self.pattern_tile.succ2
  | .RyanmenBoth => self.pattern_tile.succ2
  | _ => none

/-- Source `RegularWait::complete`: resolve the waiting pattern into one final
`RegularWait` per realizable waiting tile. -/
def RegularWait.complete (self : RegularWait) : List RegularWait :=
  ([self.waiting_tile_low, self.waiting_tile_high].filterMap id).map
    fun waiting_tile => { self with waiting_tile := waiting_tile }

/-- Source `new_partial_iter`: all seeds for the waiting suit — each waiting
pattern of its key joined with each complete grouping of the pattern's
completed-portion key. -/
def newPartIter (ct : CTable) (wt : WTable) (suit : Nat) (key : Nat) : List RegularWait :=
  (w_iter wt key).flatMap fun w =>
    (c_iter ct w.complete_key).filterMap fun c =>
      (RegularWait.from_waiting_pattern suit w).bind fun r => r.try_extend suit c

/-- Source `extend_partial_iter`: Cartesian combination of the current chain with
one complete suit's groupings. -/
def extendPartIter (ps : List RegularWait) (suit : Nat) (cs : List CompleteGrouping) :
    List RegularWait :=
  ps.flatMap fun p => cs.filterMap fun c => p.try_extend suit c

/-- The four suit keys loaded into a `Decomposer` (`keys: [u32; 4]`). -/
structure Keys where
  k0 : Nat
  k1 : Nat
  k2 : Nat
  k3 : Nat
deriving DecidableEq

def Keys.get (ks : Keys) : Nat → Nat
  | 0 => ks.k0
  | 1 => ks.k1
  | 2 => ks.k2
  | _ => ks.k3

/-- Source `Decomposer::with_keys`' cached `c_for_suit`: the complete groupings of
each suit's key, the fourth suit via the run-free `c_iter_z`. -/
def c_for_suit (ct : CTable) (ks : Keys) : Nat → List CompleteGrouping
  | 0 => c_iter ct ks.k0
  | 1 => c_iter ct ks.k1
  | 2 => c_iter ct ks.k2
  | _ => c_iter_z ct ks.k3

/-- The `suit_x` fold at the head of `Decomposer::iter`: 4 if every suit
has at least one complete grouping, the unique grouping-less suit's index
if exactly one has none, and 5 if two or more have none. -/
def suitX (ct : CTable) (ks : Keys) : Nat :=
  [0, 1, 2, 3].foldl
    (fun sx suit =>
      if (c_for_suit ct ks suit).length ≠ 0 then sx
      else if sx == 4 then suit else 5)
    4

/-- Source `Decomposer::iter`: enumerate every regular hand decomposition of the
four keys.  Each candidate waiting suit is combined with the other three
suits' complete groupings, then completed into final waits. -/
def decomposerIter (ct : CTable) (wt : WTable) (ks : Keys) : List RegularWait :=
  let sx := suitX ct ks
  ([(0, (1, 2, 3)), (1, (0, 2, 3)), (2, (0, 1, 3)), (3, (0, 1, 2))].filter
      fun sw => sx == 4 || (decide (sx < 4) && sw.1 == sx)).flatMap
    fun sw =>
      let chain := newPartIter ct wt sw.1 (ks.get sw.1)
      let chain := extendPartIter chain sw.2.1 (c_for_suit ct ks sw.2.1)
      let chain := extendPartIter chain sw.2.2.1 (c_for_suit ct ks sw.2.2.1)
      let chain := extendPartIter chain sw.2.2.2 (c_for_suit ct ks sw.2.2.2)
      chain.flatMap RegularWait.complete

/-! ## Tile-count reconstruction

Multiset reconstruction is phrased through count functions: how many copies
of the tile with absolute encoding `enc` a group, pair, pattern, key, or
whole decomposition accounts for. -/

/-- Tiles contributed by one within-suit group at rank index `j`. -/
def suitGroupCount : SuitGroup → Nat → Nat
  | .koutsu p, j => if j = p then 3 else 0
  | .shuntsu p, j =>
    (if j = p then 1 else 0) + (if j = p + 1 then 1 else 0) + (if j = p + 2 then 1 else 0)

/-- Tiles contributed by a complete grouping (groups plus pair) at rank
index `j` of its suit. -/
def cCount (c : CompleteGrouping) (j : Nat) : Nat :=
  (c.groups.map (fun g => suitGroupCount g j)).sum +
    (match c.pair with
     | some m => if j = m then 2 else 0
     | none => 0)

/-- Tiles of the incomplete unit itself (the waiting tile excluded) at rank
index `j`: a single tile for Tanki, the pattern pair for Shanpon, the two
run tiles around the gap for Kanchan, two adjacent run tiles for the
Ryanmen kinds. -/
def patternCountSuit (kind : WaitingKind) (pos j : Nat) : Nat :=
  match kind with
  | .Tanki => if j = pos then 1 else 0
  | .Shanpon => if j = pos then 2 else 0
  | .Kanchan => (if j = pos then 1 else 0) + (if j = pos + 2 then 1 else 0)
  | _ => (if j = pos then 1 else 0) + (if j = pos + 1 then 1 else 0)

/-- Tiles contributed by an absolute group at absolute encoding `enc`. -/
def handGroupCount : HandGroup → Nat → Nat
  | .Koutsu e, enc => if enc = e then 3 else 0
  | .Shuntsu e, enc =>
    (if enc = e then 1 else 0) + (if enc = e + 1 then 1 else 0) + (if enc = e + 2 then 1 else 0)

/-- The tile multiset reconstructed from a `RegularWait`: its complete
groups, its pair, and its waiting pattern's own tiles (the pattern unit the
waiting tile completes), counted at absolute encoding `enc`. -/
def waitCount (w : RegularWait) (enc : Nat) : Nat :=
  (w.groups.map (fun g => handGroupCount g enc)).sum +
    (match w.pair with
     | some p => if enc = p.enc then 2 else 0
     | none => 0) +
    patternCountSuit w.waiting_kind w.pattern_tile.enc enc

/-- The tile multiset of the four suit keys at absolute encoding `enc`. -/
def keysCount (ks : Keys) (enc : Nat) : Nat :=
  digit (ks.get (enc / 9)) (enc % 9)

/-! ## Table well-formedness

The decomposition tables are built by the `riichi_decomp_table` crate,
which is not among the provided sources.  Their contracts are modelled from
the spec and stated as well-formedness predicates. -/

/-- A within-suit group's span stays inside the nine rank indices. -/
def SuitGroup.inRange : SuitGroup → Bool
  | .koutsu p => p ≤ 8
  | .shuntsu p => p ≤ 6

/-- Modelled from the spec: a Grouping Table entry's decomposition spans
exactly the key's tile counts ("the multiset of tiles spanned by the
groups/pair exactly reconstructs the key's tile counts") and stays inside
the suit's nine ranks. -/
def CTableWF (t : CTable) : Prop :=
  ∀ e ∈ t, e.1 < 8 ^ 9 ∧
    ∀ c ∈ e.2,
      (∀ g ∈ c.groups, g.inRange) ∧
      (∀ m, c.pair = some m → m ≤ 8) ∧
      (∀ j < 9, cCount c j = digit e.1 j)

/-- A waiting pattern's own tiles stay inside the nine rank indices. -/
def WaitingPattern.inRange (w : WaitingPattern) : Bool :=
  match w.waiting_kind with
  | .Tanki => w.pattern_pos ≤ 8
  | .Shanpon => w.pattern_pos ≤ 8
  | .Kanchan => w.pattern_pos ≤ 6
  | _ => w.pattern_pos ≤ 7

/-- Modelled from the spec: a Waiting Table entry splits its key into the
incomplete unit's own tiles plus the still-complete portion's key
("enumerate every way to remove a group's worth of structure such that the
remainder is a recognized Waiting Pattern referencing a Complete-Grouping
key"). -/
def WTableWF (t : WTable) : Prop :=
  ∀ e ∈ t, e.1 < 8 ^ 9 ∧
    ∀ w ∈ e.2,
      w.inRange ∧
      (∀ j < 9, patternCountSuit w.waiting_kind w.pattern_pos j + digit w.complete_key j =
        digit e.1 j)

/-- Valid packed keys: nine octal digits for the numeral suits, seven for
the non-numeral suit. -/
def KeysValid (ks : Keys) : Prop :=
  ks.k0 < 8 ^ 9 ∧ ks.k1 < 8 ^ 9 ∧ ks.k2 < 8 ^ 9 ∧ ks.k3 < 8 ^ 7

instance (t : CTable) : Decidable (CTableWF t) := by unfold CTableWF; infer_instance

instance (t : WTable) : Decidable (WTableWF t) := by unfold WTableWF; infer_instance

instance (ks : Keys) : Decidable (KeysValid ks) := by unfold KeysValid; infer_instance

/-! ## A concrete table fragment

Modelled from the spec: the fragment of the Grouping and Waiting tables
covering the keys exercised by the spec's shanpon example.  Key `0` has the
single empty decomposition; key `0o333` decomposes as three triplets or
three identical runs; the two-of-one-kind keys are lone pairs; the waiting
key `0o2200000` has the two triplet-style (shanpon) patterns. -/

def modelCTable : CTable :=
  [(0, [⟨[], none⟩]),
   (0o333, [⟨[.koutsu 0, .koutsu 1, .koutsu 2], none⟩,
            ⟨[.shuntsu 0, .shuntsu 0, .shuntsu 0], none⟩]),
   (0o2000000, [⟨[], some 6⟩]),
   (0o200000, [⟨[], some 5⟩]),
   (0o2, [⟨[], some 0⟩])]

def modelWTable : WTable :=
  [(0o2200000, [⟨5, 0o2000000, .Shanpon⟩, ⟨6, 0o200000, .Shanpon⟩]),
   (0o11, [⟨0, 0, .RyanmenHigh⟩])]

/-- The spec's shanpon example keys: counts 3,3,3 of ranks 1-3 in the first
numeral suit, plus two each of two non-numeral kinds. -/
def exampleKeys : Keys := ⟨0o333, 0, 0, 0o2200000⟩

/-- A boundary run-wait example: ranks 1-2 of the first numeral suit (an
edge wait on rank 3), three triplets in the second numeral suit, and a
non-numeral pair. -/
def ryanmenKeys : Keys := ⟨0o11, 0o333, 0, 0o2⟩

/-- Total function building a tile from an in-range encoding. -/
def tile (n : Nat) : Tile :=
  if h : n < 34 then ⟨n, h⟩ else Tile.MIN

/-- The Ryanmen family of waiting kinds — the source broadens the
"double-sided run wait" term to any two consecutive numerals, with the
`High`/`Low` variants marking the boundary-truncated cases. -/
def WaitingKind.isRyanmen : WaitingKind → Bool
  | .RyanmenHigh => true
  | .RyanmenLow => true
  | .RyanmenBoth => true
  | _ => false

/-! ## Membership lemmas for the decomposer's iteration -/

theorem lookup_mem {α β : Type} [BEq α] [LawfulBEq α] {l : List (α × β)} {k : α} {v : β}
    (h : l.lookup k = some v) : (k, v) ∈ l := by
  induction l with
  | nil => simp [List.lookup] at h
  | cons e es ih =>
    obtain ⟨ek, ev⟩ := e
    rcases hbe : k == ek with _ | _
    · simp only [List.lookup, hbe] at h
      exact List.mem_cons_of_mem _ (ih h)
    · simp only [List.lookup, hbe] at h
      obtain rfl : ev = v := by injection h
      rw [eq_of_beq hbe]
      exact List.mem_cons_self _ _

theorem c_iter_cases {t : CTable} {k : Nat} {c : CompleteGrouping} (h : c ∈ c_iter t k) :
    ∃ v, (k, v) ∈ t ∧ c ∈ v := by
  unfold c_iter at h
  cases hl : t.lookup k with
  | none => rw [hl] at h; simp at h
  | some v => rw [hl] at h; exact ⟨v, lookup_mem hl, h⟩

theorem w_iter_cases {t : WTable} {k : Nat} {w : WaitingPattern} (h : w ∈ w_iter t k) :
    ∃ v, (k, v) ∈ t ∧ w ∈ v := by
  unfold w_iter at h
  cases hl : t.lookup k with
  | none => rw [hl] at h; simp at h
  | some v => rw [hl] at h; exact ⟨v, lookup_mem hl, h⟩

theorem mem_extendPart {ps : List RegularWait} {suit : Nat} {cs : List CompleteGrouping}
    {q : RegularWait} (h : q ∈ extendPartIter ps suit cs) :
    ∃ p ∈ ps, ∃ c ∈ cs, p.try_extend suit c = some q := by
  unfold extendPartIter at h
  simp only [List.mem_flatMap, List.mem_filterMap] at h
  obtain ⟨p, hp, c, hc, hq⟩ := h
  exact ⟨p, hp, c, hc, hq⟩

theorem mem_newPart {ct : CTable} {wt : WTable} {suit key : Nat} {p : RegularWait}
    (h : p ∈ newPartIter ct wt suit key) :
    ∃ w ∈ w_iter wt key, ∃ c ∈ c_iter ct w.complete_key, ∃ r,
      RegularWait.from_waiting_pattern suit w = some r ∧ r.try_extend suit c = some p := by
  unfold newPartIter at h
  simp only [List.mem_flatMap, List.mem_filterMap, Option.bind_eq_some] at h
  obtain ⟨w, hw, c, hc, r, hr, hrp⟩ := h
  exact ⟨w, hw, c, hc, r, hr, hrp⟩

theorem mem_iter {ct : CTable} {wt : WTable} {ks : Keys} {wait : RegularWait}
    (h : wait ∈ decomposerIter ct wt ks) :
    ∃ sw ∈ ([(0, (1, 2, 3)), (1, (0, 2, 3)), (2, (0, 1, 3)), (3, (0, 1, 2))] :
        List (Nat × Nat × Nat × Nat)),
      ∃ p ∈ extendPartIter (extendPartIter (extendPartIter
          (newPartIter ct wt sw.1 (ks.get sw.1))
          sw.2.1 (c_for_suit ct ks sw.2.1))
          sw.2.2.1 (c_for_suit ct ks sw.2.2.1))
          sw.2.2.2 (c_for_suit ct ks sw.2.2.2),
        wait ∈ p.complete := by
  unfold decomposerIter at h
  simp only [List.mem_flatMap, List.mem_filter] at h
  obtain ⟨sw, hsw, p, hp, hw⟩ := h
  exact ⟨sw, hsw.1, p, hp, hw⟩

theorem mem_complete {p wait : RegularWait} (h : wait ∈ p.complete) :
    (p.waiting_tile_low = some wait.waiting_tile ∨
      p.waiting_tile_high = some wait.waiting_tile) ∧
    wait.waiting_kind = p.waiting_kind ∧ wait.pattern_tile = p.pattern_tile ∧
    wait.groups = p.groups ∧ wait.pair = p.pair ∧ wait.complete = p.complete := by
  unfold RegularWait.complete at h
  simp only [List.mem_map, List.mem_filterMap, List.mem_cons, List.not_mem_nil, or_false,
    id_eq] at h
  obtain ⟨t, ht, rfl⟩ := h
  refine ⟨?_, rfl, rfl, rfl, rfl, rfl⟩
  have ht' : some t = p.waiting_tile_low ∨ some t = p.waiting_tile_high := by simpa using ht
  rcases ht' with h' | h'
  · exact Or.inl h'.symm
  · exact Or.inr h'.symm

/-! ## Claim theorems: decomposer -/

/-- C9: on the four-suit keys `[0o000000333, 0, 0, 0o2200000]` (three
each of ranks 1-3 in the first numeral suit, two each of two non-numeral
kinds) the Decomposer yields exactly four Regular Waits: each of the two
group decompositions of the numeral suit (three triplets, or three
identical runs) paired with each of the two shanpon choices (pair on one
non-numeral kind waiting on the other, and vice versa). -/
theorem shanpon_example_yields_four_waits :
    decomposerIter modelCTable modelWTable exampleKeys =
      [⟨[.Koutsu 2, .Koutsu 1, .Koutsu 0], some (tile 33), .Shanpon, tile 32, tile 32⟩,
       ⟨[.Shuntsu 0, .Shuntsu 0, .Shuntsu 0], some (tile 33), .Shanpon, tile 32, tile 32⟩,
       ⟨[.Koutsu 2, .Koutsu 1, .Koutsu 0], some (tile 32), .Shanpon, tile 33, tile 33⟩,
       ⟨[.Shuntsu 0, .Shuntsu 0, .Shuntsu 0], some (tile 32), .Shanpon, tile 33, tile 33⟩] := by
  decide

/-- C2: when more than one suit's key has no complete-grouping
decomposition at all (its cached grouping list is empty), the Decomposer's
iteration yields the empty sequence. -/
theorem iter_empty_of_two_undecomposable_suits
    (ct : CTable) (wt : WTable) (ks : Keys) (i j : Nat) (hij : i < j) (hj : j ≤ 3)
    (hi : c_for_suit ct ks i = []) (hjj : c_for_suit ct ks j = []) :
    decomposerIter ct wt ks = [] := by
  have hsx : suitX ct ks = 5 := by
    have hi2 : i ≤ 2 := by omega
    interval_cases i <;> interval_cases j <;>
      by_cases h0 : (c_for_suit ct ks 0).length = 0 <;>
      by_cases h1 : (c_for_suit ct ks 1).length = 0 <;>
      by_cases h2 : (c_for_suit ct ks 2).length = 0 <;>
      by_cases h3 : (c_for_suit ct ks 3).length = 0 <;>
      simp_all [suitX]
  unfold decomposerIter
  simp [hsx]

/-- Closed-form instance of
`iter_empty_of_two_undecomposable_suits`: the spec's example keys
`[3, 2, 1, 0]` reach no decomposable shape in the first and third suits,
so the Decomposer yields nothing. -/
theorem iter_empty_of_two_undecomposable_suits_witness :
    c_for_suit modelCTable ⟨3, 2, 1, 0⟩ 0 = [] ∧
    c_for_suit modelCTable ⟨3, 2, 1, 0⟩ 2 = [] ∧
    decomposerIter modelCTable modelWTable ⟨3, 2, 1, 0⟩ = [] :=
  ⟨by decide, by decide,
    iter_empty_of_two_undecomposable_suits modelCTable modelWTable ⟨3, 2, 1, 0⟩ 0 2
      (by decide) (by decide) (by decide) (by decide)⟩

/-- C3: every Regular Wait produced with a waiting kind in the
double-sided (Ryanmen) run-wait family waits on a numeral tile (absolute
encoding below 27, i.e. rank 1-9 of a numeral suit), and when its pattern
tile sits at a numeral boundary (rank 1, the `12` edge, or rank 8, the
`89` edge) the pattern resolves to exactly one waiting tile rather than
two. -/
theorem ryanmen_wait_numeral_and_boundary_single
    (ct : CTable) (wt : WTable) (ks : Keys) (wait : RegularWait)
    (hmem : wait ∈ decomposerIter ct wt ks)
    (hryan : wait.waiting_kind.isRyanmen = true) :
    wait.waiting_tile.enc < 27 ∧
      ((wait.pattern_tile.enc % 9 = 0 ∨ wait.pattern_tile.enc % 9 = 7) →
        wait.complete.length = 1) := by
  obtain ⟨sw, _, p, _, hpc⟩ := mem_iter hmem
  obtain ⟨hlh, hk, hpt, _, _, hcc⟩ := mem_complete hpc
  rw [hk] at hryan
  rw [hcc, hpt]
  cases hpk : p.waiting_kind <;> rw [hpk] at hryan <;>
    simp only [WaitingKind.isRyanmen, Bool.false_eq_true] at hryan
  case RyanmenHigh =>
    have hl0 : p.waiting_tile_low = none := by
      simp [RegularWait.waiting_tile_low, hpk]
    have hh : p.waiting_tile_high = p.pattern_tile.succ2 := by
      simp [RegularWait.waiting_tile_high, hpk]
    rw [hl0, hh] at hlh
    have hsucc : p.pattern_tile.succ2 = some wait.waiting_tile := by
      rcases hlh with h' | h'
      · exact Option.noConfusion h'
      · exact h'
    have hcond : p.pattern_tile.enc < 27 ∧ p.pattern_tile.enc % 9 < 7 := by
      by_contra hc
      unfold Tile.succ2 at hsucc
      rw [dif_neg hc] at hsucc
      exact Option.noConfusion hsucc
    have henc : wait.waiting_tile.enc = p.pattern_tile.enc + 2 := by
      unfold Tile.succ2 at hsucc
      rw [dif_pos hcond] at hsucc
      exact (congrArg Tile.enc (Option.some.inj hsucc)).symm
    refine ⟨by omega, fun _ => ?_⟩
    unfold RegularWait.complete
    rw [hl0, hh, hsucc]
    rfl
  case RyanmenLow =>
    have hh0 : p.waiting_tile_high = none := by
      simp [RegularWait.waiting_tile_high, hpk]
    have hl : p.waiting_tile_low = p.pattern_tile.pred := by
      simp [RegularWait.waiting_tile_low, hpk]
    rw [hl, hh0] at hlh
    have hpred : p.pattern_tile.pred = some wait.waiting_tile := by
      rcases hlh with h' | h'
      · exact h'
      · exact Option.noConfusion h'
    have hcond : p.pattern_tile.enc < 27 ∧ p.pattern_tile.enc % 9 > 0 := by
      by_contra hc
      unfold Tile.pred at hpred
      rw [dif_neg hc] at hpred
      exact Option.noConfusion hpred
    have henc : wait.waiting_tile.enc = p.pattern_tile.enc - 1 := by
      unfold Tile.pred at hpred
      rw [dif_pos hcond] at hpred
      exact (congrArg Tile.enc (Option.some.inj hpred)).symm
    refine ⟨by omega, fun _ => ?_⟩
    unfold RegularWait.complete
    rw [hl, hh0, hpred]
    rfl
  case RyanmenBoth =>
    have hl : p.waiting_tile_low = p.pattern_tile.pred := by
      simp [RegularWait.waiting_tile_low, hpk]
    have hh : p.waiting_tile_high = p.pattern_tile.succ2 := by
      simp [RegularWait.waiting_tile_high, hpk]
    rw [hl, hh] at hlh
    refine ⟨?_, ?_⟩
    · rcases hlh with h' | h'
      · have hcond : p.pattern_tile.enc < 27 ∧ p.pattern_tile.enc % 9 > 0 := by
          by_contra hc
          unfold Tile.pred at h'
          rw [dif_neg hc] at h'
          exact Option.noConfusion h'
        have henc : wait.waiting_tile.enc = p.pattern_tile.enc - 1 := by
          unfold Tile.pred at h'
          rw [dif_pos hcond] at h'
          exact (congrArg Tile.enc (Option.some.inj h')).symm
        omega
      · have hcond : p.pattern_tile.enc < 27 ∧ p.pattern_tile.enc % 9 < 7 := by
          by_contra hc
          unfold Tile.succ2 at h'
          rw [dif_neg hc] at h'
          exact Option.noConfusion h'
        have henc : wait.waiting_tile.enc = p.pattern_tile.enc + 2 := by
          unfold Tile.succ2 at h'
          rw [dif_pos hcond] at h'
          exact (congrArg Tile.enc (Option.some.inj h')).symm
        omega
    · intro hbound
      rcases hbound with hb | hb
      · -- rank-1 edge: no lower neighbor, so the upper completion fired
        have hpred0 : p.pattern_tile.pred = none := by
          unfold Tile.pred
          rw [dif_neg]
          omega
        rw [hpred0] at hlh
        have hsucc : p.pattern_tile.succ2 = some wait.waiting_tile := by
          rcases hlh with h' | h'
          · exact Option.noConfusion h'
          · exact h'
        unfold RegularWait.complete
        rw [hl, hh, hpred0, hsucc]
        rfl
      · -- rank-8 edge: no upper neighbor, so the lower completion fired
        have hsucc0 : p.pattern_tile.succ2 = none := by
          unfold Tile.succ2
          rw [dif_neg]
          omega
        rw [hsucc0] at hlh
        have hpred : p.pattern_tile.pred = some wait.waiting_tile := by
          rcases hlh with h' | h'
          · exact h'
          · exact Option.noConfusion h'
        unfold RegularWait.complete
        rw [hl, hh, hsucc0, hpred]
        rfl

/-! ## Count bookkeeping for the reconstruction claim -/

/-- Tiles contributed by one suit's complete grouping, at absolute
encodings (`suit * 9` re-based, exactly as `extend_groups`/`extend_pair`
place them). -/
def cFull (suit : Nat) (c : CompleteGrouping) (enc : Nat) : Nat :=
  (c.groups.map (fun g => handGroupCount (toHandGroup suit g) enc)).sum +
    (match c.pair with
     | some m => if enc = m + suit * 9 then 2 else 0
     | none => 0)

theorem extend_groups_sum (gs : List HandGroup) (suit : Nat) (c : CompleteGrouping)
    (enc : Nat) :
    ((extend_groups gs suit c).map (fun g => handGroupCount g enc)).sum =
      (gs.map (fun g => handGroupCount g enc)).sum +
        (c.groups.map (fun g => handGroupCount (toHandGroup suit g) enc)).sum := by
  unfold extend_groups
  generalize c.groups = l
  induction l generalizing gs with
  | nil => simp
  | cons a l ih =>
    simp only [List.foldl_cons, List.map_cons, List.sum_cons]
    rw [ih]
    simp only [List.map_cons, List.sum_cons]
    omega

theorem waitCount_try_extend {p q : RegularWait} {suit : Nat} {c : CompleteGrouping}
    (hq : p.try_extend suit c = some q)
    (hpv : ∀ m, c.pair = some m → m + suit * 9 < 34) (enc : Nat) :
    waitCount q enc = waitCount p enc + cFull suit c enc := by
  unfold RegularWait.try_extend at hq
  split at hq
  · exact Option.noConfusion hq
  · rename_i hguard
    obtain rfl := Option.some.inj hq
    unfold waitCount cFull
    dsimp only
    rw [extend_groups_sum]
    cases hcp : c.pair with
    | none =>
      have hep : extend_pair p.pair suit c = p.pair := by
        unfold extend_pair
        cases p.pair <;> simp [hcp]
      rw [hep]
      dsimp only
      omega
    | some m =>
      have hppn : p.pair = none := by
        cases hpp : p.pair with
        | none => rfl
        | some t =>
          exfalso
          apply hguard
          simp [RegularWait.has_pair_or_tanki, hpp, hcp]
      have hep : extend_pair p.pair suit c = some ⟨m + suit * 9, hpv m hcp⟩ := by
        unfold extend_pair
        rw [hppn, hcp]
        dsimp only
        unfold Tile.from_encoding
        rw [dif_pos (hpv m hcp)]
      rw [hep, hppn]
      dsimp only
      split_ifs <;> omega

theorem try_extend_fields {p q : RegularWait} {suit : Nat} {c : CompleteGrouping}
    (hq : p.try_extend suit c = some q) :
    q.waiting_kind = p.waiting_kind ∧ q.pattern_tile = p.pattern_tile := by
  unfold RegularWait.try_extend at hq
  split at hq
  · exact Option.noConfusion hq
  · obtain rfl := Option.some.inj hq
    exact ⟨rfl, rfl⟩

theorem from_waiting_pattern_fields {suit : Nat} {w : WaitingPattern} {r : RegularWait}
    (hr : RegularWait.from_waiting_pattern suit w = some r) :
    r.waiting_kind = w.waiting_kind ∧ r.pattern_tile.enc = w.pattern_pos + 9 * suit ∧
      r.groups = [] ∧ r.pair = none := by
  unfold RegularWait.from_waiting_pattern at hr
  split at hr
  · exact Option.noConfusion hr
  · split at hr
    · rename_i pt heq
      obtain rfl := Option.some.inj hr
      refine ⟨rfl, ?_, rfl, rfl⟩
      unfold Tile.from_encoding at heq
      split at heq
      · exact (congrArg Tile.enc (Option.some.inj heq)).symm
      · exact Option.noConfusion heq
    · exact Option.noConfusion hr

/-- The seed of a decomposition counts exactly its pattern's tiles. -/
theorem waitCount_from_waiting_pattern {suit : Nat} {w : WaitingPattern} {r : RegularWait}
    (hr : RegularWait.from_waiting_pattern suit w = some r) (enc : Nat) :
    waitCount r enc = patternCountSuit w.waiting_kind (w.pattern_pos + 9 * suit) enc := by
  obtain ⟨hk, hpt, hg, hpr⟩ := from_waiting_pattern_fields hr
  unfold waitCount
  rw [hk, hpt, hg, hpr]
  simp

theorem waitCount_complete {p wait : RegularWait} (h : wait ∈ p.complete) (enc : Nat) :
    waitCount wait enc = waitCount p enc := by
  obtain ⟨_, hk, hpt, hg, hpr, _⟩ := mem_complete h
  unfold waitCount
  rw [hk, hpt, hg, hpr]

/-! ## Localizing per-suit counts to absolute encodings -/

theorem handGroupCount_toHandGroup (suit : Nat) (g : SuitGroup) (hg : g.inRange = true)
    (enc : Nat) :
    handGroupCount (toHandGroup suit g) enc =
      if enc / 9 = suit then suitGroupCount g (enc % 9) else 0 := by
  cases g with
  | koutsu p =>
    simp only [SuitGroup.inRange, decide_eq_true_eq] at hg
    simp only [toHandGroup, handGroupCount, suitGroupCount]
    split_ifs <;> omega
  | shuntsu p =>
    simp only [SuitGroup.inRange, decide_eq_true_eq] at hg
    simp only [toHandGroup, handGroupCount, suitGroupCount]
    split_ifs <;> omega

theorem sum_handGroupCount (suit enc : Nat) (l : List SuitGroup)
    (hg : ∀ g ∈ l, g.inRange = true) :
    (l.map (fun g => handGroupCount (toHandGroup suit g) enc)).sum =
      if enc / 9 = suit then (l.map (fun g => suitGroupCount g (enc % 9))).sum else 0 := by
  induction l with
  | nil => simp
  | cons a l ih =>
    simp only [List.map_cons, List.sum_cons]
    rw [handGroupCount_toHandGroup suit a (hg a (List.mem_cons_self a l)) enc,
      ih (fun g h => hg g (List.mem_cons_of_mem a h))]
    split <;> simp

theorem cFull_localize (suit : Nat) (c : CompleteGrouping)
    (hg : ∀ g ∈ c.groups, g.inRange = true) (hp : ∀ m, c.pair = some m → m ≤ 8)
    (enc : Nat) :
    cFull suit c enc = if enc / 9 = suit then cCount c (enc % 9) else 0 := by
  unfold cFull cCount
  rw [sum_handGroupCount suit enc c.groups hg]
  have hpair : (match c.pair with
      | some m => if enc = m + suit * 9 then 2 else 0
      | none => 0) =
      if enc / 9 = suit then
        (match c.pair with
         | some m => if enc % 9 = m then 2 else 0
         | none => 0) else 0 := by
    cases hcp : c.pair with
    | none =>
      dsimp only
      simp
    | some m =>
      have hm := hp m hcp
      dsimp only
      split_ifs <;> omega
  rw [hpair]
  split <;> simp

theorem patternCountSuit_localize (w : WaitingPattern) (hr : w.inRange = true)
    (suit enc : Nat) :
    patternCountSuit w.waiting_kind (w.pattern_pos + 9 * suit) enc =
      if enc / 9 = suit then patternCountSuit w.waiting_kind w.pattern_pos (enc % 9)
      else 0 := by
  obtain ⟨pos, ck, kind⟩ := w
  cases kind <;>
    simp only [WaitingPattern.inRange, decide_eq_true_eq] at hr <;>
    simp only [patternCountSuit] <;>
    split_ifs <;> omega

/-! ## Extracting table facts -/

theorem digit_zero_of_lt {k j c : Nat} (h : k < 8 ^ c) (hj : c ≤ j) : digit k j = 0 := by
  unfold digit
  have hz : k / 8 ^ j = 0 :=
    Nat.div_eq_of_lt (lt_of_lt_of_le h (Nat.pow_le_pow_right (by omega) hj))
  rw [hz]

theorem cwf_spec {t : CTable} (hwf : CTableWF t) {k : Nat} {c : CompleteGrouping}
    (hc : c ∈ c_iter t k) :
    (∀ g ∈ c.groups, g.inRange = true) ∧ (∀ m, c.pair = some m → m ≤ 8) ∧
      (∀ j < 9, cCount c j = digit k j) := by
  obtain ⟨v, hv, hcv⟩ := c_iter_cases hc
  exact (hwf (k, v) hv).2 c hcv

theorem c_for_suit_sub {ct : CTable} {ks : Keys} {s : Nat} {c : CompleteGrouping}
    (hs : s ≤ 3) (hc : c ∈ c_for_suit ct ks s) : c ∈ c_iter ct (ks.get s) := by
  interval_cases s
  · exact hc
  · exact hc
  · exact hc
  · exact List.mem_of_mem_filter hc

theorem pair_valid {ct : CTable} {ks : Keys} (hct : CTableWF ct) (hks : KeysValid ks)
    {s : Nat} (hs : s ≤ 3) {c : CompleteGrouping} (hc : c ∈ c_iter ct (ks.get s)) :
    ∀ m, c.pair = some m → m + s * 9 < 34 := by
  intro m hm
  obtain ⟨hg, hp, hcnt⟩ := cwf_spec hct hc
  have hm8 : m ≤ 8 := hp m hm
  rcases Nat.lt_or_ge s 3 with h3 | h3
  · omega
  · have hs3 : s = 3 := by omega
    subst hs3
    have h2 : 2 ≤ cCount c m := by
      unfold cCount
      rw [hm]
      simp
    have hd : cCount c m = digit (ks.get 3) m := hcnt m (by omega)
    by_cases hm6 : m ≤ 6
    · omega
    · exfalso
      have h0 : digit (ks.get 3) m = 0 := digit_zero_of_lt hks.2.2.2 (by omega)
      omega

theorem cFull_digit {ct : CTable} {ks : Keys} (hct : CTableWF ct)
    {s : Nat} (hs : s ≤ 3) {c : CompleteGrouping} (hc : c ∈ c_for_suit ct ks s)
    (enc : Nat) :
    cFull s c enc = if enc / 9 = s then digit (ks.get s) (enc % 9) else 0 := by
  obtain ⟨hg, hp, hcnt⟩ := cwf_spec hct (c_for_suit_sub hs hc)
  rw [cFull_localize s c hg hp enc]
  rw [hcnt (enc % 9) (Nat.mod_lt _ (by omega))]

/-- The waiting suit's seed plus its own completion contribute exactly the
waiting suit's key digits. -/
theorem seed_count {ct : CTable} {wt : WTable} {ks : Keys}
    (hct : CTableWF ct) (hwt : WTableWF wt) (hks : KeysValid ks)
    {s0 : Nat} (hs0 : s0 ≤ 3)
    {w : WaitingPattern} {cw : CompleteGrouping} {r p0 : RegularWait}
    (hw : w ∈ w_iter wt (ks.get s0)) (hcw : cw ∈ c_iter ct w.complete_key)
    (hr : RegularWait.from_waiting_pattern s0 w = some r)
    (hrw : r.try_extend s0 cw = some p0) (enc : Nat) :
    waitCount p0 enc = if enc / 9 = s0 then digit (ks.get s0) (enc % 9) else 0 := by
  obtain ⟨vw, hvw, hwv⟩ := w_iter_cases hw
  obtain ⟨hwr, hwsum⟩ := (hwt (ks.get s0, vw) hvw).2 w hwv
  dsimp only at hwsum
  obtain ⟨hgw, hpw, hcntw⟩ := cwf_spec hct hcw
  have hpv : ∀ m, cw.pair = some m → m + s0 * 9 < 34 := by
    intro m hm
    have hm8 : m ≤ 8 := hpw m hm
    rcases Nat.lt_or_ge s0 3 with h3 | h3
    · omega
    · have hs3 : s0 = 3 := by omega
      subst hs3
      have h2 : 2 ≤ cCount cw m := by
        unfold cCount
        rw [hm]
        simp
      have hd : cCount cw m = digit w.complete_key m := hcntw m (by omega)
      by_cases hm6 : m ≤ 6
      · omega
      · exfalso
        have h0 : digit (ks.get 3) m = 0 := digit_zero_of_lt hks.2.2.2 (by omega)
        have hws := hwsum m (by omega)
        omega
  rw [waitCount_try_extend hrw hpv enc, waitCount_from_waiting_pattern hr enc]
  rw [cFull_localize s0 cw hgw hpw enc]
  rw [patternCountSuit_localize w hwr s0 enc]
  have hj : enc % 9 < 9 := Nat.mod_lt _ (by omega)
  have e1 := hcntw (enc % 9) hj
  have e2 := hwsum (enc % 9) hj
  split_ifs <;> omega

/-- Assembling one waiting suit with the three complete suits reconstructs
the whole key multiset. -/
theorem chain_reconstructs
    (ct : CTable) (wt : WTable) (ks : Keys)
    (hct : CTableWF ct) (hwt : WTableWF wt) (hks : KeysValid ks)
    (s0 sa sb sc : Nat) (hs0 : s0 ≤ 3) (hsa : sa ≤ 3) (hsb : sb ≤ 3) (hsc : sc ≤ 3)
    (hcover : ∀ d, d ≤ 3 → d = s0 ∨ d = sa ∨ d = sb ∨ d = sc)
    (h0a : s0 ≠ sa) (h0b : s0 ≠ sb) (h0c : s0 ≠ sc)
    (hab : sa ≠ sb) (hac : sa ≠ sc) (hbc : sb ≠ sc)
    {wait p3 p2 p1 p0 : RegularWait} {c2 c1 c0 : CompleteGrouping}
    {w : WaitingPattern} {cw : CompleteGrouping} {r : RegularWait}
    (hpc : wait ∈ p3.complete)
    (he2 : p2.try_extend sc c2 = some p3) (hc2 : c2 ∈ c_for_suit ct ks sc)
    (he1 : p1.try_extend sb c1 = some p2) (hc1 : c1 ∈ c_for_suit ct ks sb)
    (he0 : p0.try_extend sa c0 = some p1) (hc0 : c0 ∈ c_for_suit ct ks sa)
    (hw : w ∈ w_iter wt (ks.get s0)) (hcw : cw ∈ c_iter ct w.complete_key)
    (hr : RegularWait.from_waiting_pattern s0 w = some r)
    (hrw : r.try_extend s0 cw = some p0)
    (enc : Nat) (henc : enc < 34) :
    waitCount wait enc = keysCount ks enc := by
  have h0 := seed_count hct hwt hks hs0 hw hcw hr hrw enc
  have ha := waitCount_try_extend he0
    (pair_valid hct hks hsa (c_for_suit_sub hsa hc0)) enc
  have hb := waitCount_try_extend he1
    (pair_valid hct hks hsb (c_for_suit_sub hsb hc1)) enc
  have hcq := waitCount_try_extend he2
    (pair_valid hct hks hsc (c_for_suit_sub hsc hc2)) enc
  have hfa := cFull_digit hct hsa hc0 enc
  have hfb := cFull_digit hct hsb hc1 enc
  have hfc := cFull_digit hct hsc hc2 enc
  rw [waitCount_complete hpc enc, hcq, hb, ha, h0, hfa, hfb, hfc]
  unfold keysCount
  have hd : enc / 9 ≤ 3 := by omega
  rcases hcover (enc / 9) hd with h | h | h | h <;> rw [h] <;> split_ifs <;> omega

/-- C1: for every four-suit key array and every Regular Wait the
Decomposer produces on it, the tile multiset reconstructed from the wait's
complete groups, its pair, and its waiting pattern (the unit the waiting
tile completes) equals the original four-suit key multiset, tile kind by
tile kind. -/
theorem regular_wait_reconstructs_keys
    (ct : CTable) (wt : WTable) (ks : Keys)
    (hct : CTableWF ct) (hwt : WTableWF wt) (hks : KeysValid ks)
    (wait : RegularWait) (hmem : wait ∈ decomposerIter ct wt ks)
    (enc : Nat) (henc : enc < 34) :
    waitCount wait enc = keysCount ks enc := by
  obtain ⟨sw, hsw, p3, hp3, hpc⟩ := mem_iter hmem
  obtain ⟨p2, hp2, c2, hc2, he2⟩ := mem_extendPart hp3
  obtain ⟨p1, hp1, c1, hc1, he1⟩ := mem_extendPart hp2
  obtain ⟨p0, hp0, c0, hc0, he0⟩ := mem_extendPart hp1
  obtain ⟨w, hw, cw, hcw, r, hr, hrw⟩ := mem_newPart hp0
  simp only [List.mem_cons, List.not_mem_nil, or_false] at hsw
  rcases hsw with rfl | rfl | rfl | rfl
  · exact chain_reconstructs ct wt ks hct hwt hks 0 1 2 3
      (by omega) (by omega) (by omega) (by omega) (by omega)
      (by omega) (by omega) (by omega) (by omega) (by omega) (by omega)
      hpc he2 hc2 he1 hc1 he0 hc0 hw hcw hr hrw enc henc
  · exact chain_reconstructs ct wt ks hct hwt hks 1 0 2 3
      (by omega) (by omega) (by omega) (by omega) (by omega)
      (by omega) (by omega) (by omega) (by omega) (by omega) (by omega)
      hpc he2 hc2 he1 hc1 he0 hc0 hw hcw hr hrw enc henc
  · exact chain_reconstructs ct wt ks hct hwt hks 2 0 1 3
      (by omega) (by omega) (by omega) (by omega) (by omega)
      (by omega) (by omega) (by omega) (by omega) (by omega) (by omega)
      hpc he2 hc2 he1 hc1 he0 hc0 hw hcw hr hrw enc henc
  · exact chain_reconstructs ct wt ks hct hwt hks 3 0 1 2
      (by omega) (by omega) (by omega) (by omega) (by omega)
      (by omega) (by omega) (by omega) (by omega) (by omega) (by omega)
      hpc he2 hc2 he1 hc1 he0 hc0 hw hcw hr hrw enc henc

/-- Closed-form instance of `regular_wait_reconstructs_keys` at the
concrete table fragment, the spec's shanpon example keys, one of its four
waits, and one tile kind of each suit region. -/
theorem regular_wait_reconstructs_keys_witness :
    CTableWF modelCTable ∧ WTableWF modelWTable ∧ KeysValid exampleKeys ∧
      (⟨[.Koutsu 2, .Koutsu 1, .Koutsu 0], some (tile 33), .Shanpon, tile 32, tile 32⟩ :
        RegularWait) ∈ decomposerIter modelCTable modelWTable exampleKeys ∧
      waitCount ⟨[.Koutsu 2, .Koutsu 1, .Koutsu 0], some (tile 33), .Shanpon, tile 32,
        tile 32⟩ 0 = keysCount exampleKeys 0 ∧
      waitCount ⟨[.Koutsu 2, .Koutsu 1, .Koutsu 0], some (tile 33), .Shanpon, tile 32,
        tile 32⟩ 32 = keysCount exampleKeys 32 :=
  ⟨by decide, by decide, by decide, by decide,
    regular_wait_reconstructs_keys modelCTable modelWTable exampleKeys
      (by decide) (by decide) (by decide) _ (by decide) 0 (by decide),
    regular_wait_reconstructs_keys modelCTable modelWTable exampleKeys
      (by decide) (by decide) (by decide) _ (by decide) 32 (by decide)⟩

/-- Closed-form instance of `ryanmen_wait_numeral_and_boundary_single`: a
boundary `12`-edge wait from the concrete table fragment. -/
theorem ryanmen_wait_numeral_and_boundary_single_witness :
    (⟨[.Koutsu 11, .Koutsu 10, .Koutsu 9], some (tile 27), .RyanmenHigh, tile 0, tile 2⟩ :
        RegularWait) ∈ decomposerIter modelCTable modelWTable ryanmenKeys ∧
    (⟨[.Koutsu 11, .Koutsu 10, .Koutsu 9], some (tile 27), .RyanmenHigh, tile 0,
        tile 2⟩ : RegularWait).waiting_tile.enc < 27 := by
  refine ⟨by decide, ?_⟩
  exact (ryanmen_wait_numeral_and_boundary_single modelCTable modelWTable ryanmenKeys
    _ (by decide) (by decide)).1

/-! ## Engine data model

The round-state types live in `crate::model` and `crate::engine` (not among
the provided sources); they are modelled from the spec's Round State /
Engine Cache descriptions.  Per-player arrays `[T; 4]` are modelled as a
four-field record so that states stay decidably comparable. -/

/-- Modelled from the spec: a seat, one of the four players. -/
abbrev Player := Fin 4

/-- A `[T; 4]` per-player array. -/
structure Quad (α : Type) where
  q0 : α
  q1 : α
  q2 : α
  q3 : α
deriving DecidableEq

def Quad.get {α : Type} (q : Quad α) (i : Player) : α :=
  if i.val = 0 then q.q0 else if i.val = 1 then q.q1 else if i.val = 2 then q.q2 else q.q3

def Quad.set {α : Type} (q : Quad α) (i : Player) (v : α) : Quad α :=
  if i.val = 0 then { q with q0 := v }
  else if i.val = 1 then { q with q1 := v }
  else if i.val = 2 then { q with q2 := v }
  else { q with q3 := v }

def Quad.map {α β : Type} (f : α → β) (q : Quad α) : Quad β :=
  ⟨f q.q0, f q.q1, f q.q2, f q.q3⟩

def Quad.const {α : Type} (v : α) : Quad α := ⟨v, v, v, v⟩

/-- Source `player_succ` (utils.rs): the next player in turn order, wrapping. -/
def player_succ (p : Player) : Player := 1 + p

/-- Source `all_players` (utils.rs). -/
def all_players : List Player := [0, 1, 2, 3]

/-- Source `other_players_after` (utils.rs): the three other players in turn order
after `p`. -/
def other_players_after (p : Player) : List Player := [1 + p, 2 + p, 3 + p]

/-- Modelled from the spec: normalization maps the optional "special"
variants back into the 34 kinds; tiles here are already normalized, so
this is the identity. -/
def Tile.to_normal (t : Tile) : Tile := t

/-- Modelled from the spec: the closed hand as per-kind tile counts (the
red-variant slots of the source's 37-wide array normalize into the 34). -/
structure TileSet37 where
  counts : List Nat
deriving DecidableEq

def TileSet37.get (h : TileSet37) (t : Tile) : Nat := h.counts.getD t.enc 0

def TileSet37.dec (h : TileSet37) (t : Tile) : TileSet37 :=
  ⟨h.counts.set t.enc (h.counts.getD t.enc 0 - 1)⟩

def TileSet37.decN (h : TileSet37) (t : Tile) (n : Nat) : TileSet37 :=
  ⟨h.counts.set t.enc (h.counts.getD t.enc 0 - n)⟩

/-- Source `TileSet37::terminal_kinds` (utils.rs): how many distinct
terminal/honor kinds the hand holds. -/
def TileSet37.terminal_kinds (h : TileSet37) : Nat :=
  [0, 8, 9, 17, 18, 26, 27, 28, 29, 30, 31, 32, 33].countP
    fun i => 0 < h.counts.getD i 0

/-- The packed four-suit keys of a hand (`TileSet34::packed_34`), modelled
from the spec's Packed Key Encoding. -/
def handKeys (h : TileSet37) : Keys :=
  let suitKey : Nat → Nat := fun s =>
    (List.range 9).foldl (fun a r => a + h.counts.getD (9 * s + r) 0 * 8 ^ r) 0
  let honorKey : Nat :=
    (List.range 7).foldl (fun a r => a + h.counts.getD (27 + r) 0 * 8 ^ r) 0
  ⟨suitKey 0, suitKey 1, suitKey 2, honorKey⟩

/-- Modelled from the spec: a run meld called from another player, with the
positional shape the swap-call check inspects. -/
structure ChiiM where
  own0 : Tile
  own1 : Tile
  called : Tile
  min : Tile
  dir : Nat
deriving DecidableEq

/-- Modelled from the spec: a triplet meld called from another player. -/
structure PonM where
  called : Tile
deriving DecidableEq

/-- Modelled from the spec: a concealed quad. -/
structure AnkanM where
  own : Tile
deriving DecidableEq

/-- Modelled from the spec: a quad upgraded from a called triplet. -/
structure KakanM where
  added : Tile
  pon : PonM
deriving DecidableEq

/-- Modelled from the spec: an open quad called from a discard. -/
structure DaiminkanM where
  called : Tile
deriving DecidableEq

/-- Source `Meld` (from `crate::common`, not among the provided sources) —
modelled from the spec. -/
inductive Meld where
  | Chii (c : ChiiM)
  | Pon (p : PonM)
  | Kakan (k : KakanM)
  | Daiminkan (d : DaiminkanM)
  | Ankan (a : AnkanM)
deriving DecidableEq

def Meld.is_kan : Meld → Bool
  | .Kakan _ => true
  | .Daiminkan _ => true
  | .Ankan _ => true
  | _ => false

def Meld.isAnkan : Meld → Bool
  | .Ankan _ => true
  | _ => false

/-- Source `Ankan::from_hand` — modelled from the spec: a concealed quad needs all
four copies of the kind in hand ("insufficient material for quad"
otherwise). -/
def AnkanM.from_hand (h : TileSet37) (t : Tile) : Option AnkanM :=
  if 4 ≤ h.get t then some ⟨t⟩ else none

def AnkanM.consume_from_hand (a : AnkanM) (h : TileSet37) : TileSet37 :=
  h.decN a.own 4

/-- Source `Kakan::from_pon_hand` — modelled from the spec: upgrading a called
triplet consumes the fourth copy from the hand. -/
def KakanM.from_pon_hand (pon : PonM) (h : TileSet37) : Option KakanM :=
  if 1 ≤ h.get pon.called.to_normal then some ⟨pon.called.to_normal, pon⟩ else none

def KakanM.consume_from_hand (k : KakanM) (h : TileSet37) : TileSet37 :=
  h.dec k.added

/-- Source `IrregularWait` (analysis/irregular.rs, not among the provided
sources) — modelled from the spec: the non-group-based special shapes
(all-unique-terminal-and-honor, possibly waiting on all thirteen kinds,
and the all-pairs shape). -/
inductive IrregularWait where
  | ThirteenOrphans (t : Tile)
  | ThirteenOrphansAll
  | SevenPairs (t : Tile)
deriving DecidableEq

/-- Modelled from the spec: the irregular shape's own waiting-tile set. -/
def IrregularWait.to_waiting_set : IrregularWait → Nat
  | .ThirteenOrphans t => 1 <<< t.enc
  | .ThirteenOrphansAll =>
    [0, 8, 9, 17, 18, 26, 27, 28, 29, 30, 31, 32, 33].foldl
      (fun m i => m ||| (1 <<< i)) 0
  | .SevenPairs t => 1 <<< t.enc

/-- Source `WaitingInfo` (analysis.rs): the union bitset of winning tiles, the
regular decompositions, and the optional irregular shape. -/
structure WaitingInfo where
  waiting_set : Nat
  regular : List RegularWait
  irregular : Option IrregularWait
deriving DecidableEq

/-- Source `WaitingInfo::from_keys` (analysis.rs), over the modelled tables and a
modelled irregular-shape detector. -/
def WaitingInfo.from_keys (ct : CTable) (wt : WTable)
    (detect : Keys → Option IrregularWait) (ks : Keys) : WaitingInfo :=
  let regular := decomposerIter ct wt ks
  let ws := regular.foldl (fun m w => m ||| (1 <<< w.waiting_tile.enc)) 0
  match detect ks with
  | some irr => ⟨ws ||| irr.to_waiting_set, regular, some irr⟩
  | none => ⟨ws, regular, none⟩

/-- Membership of a tile in a 34-bit waiting mask (`TileMask34::has`). -/
def maskHas (m : Nat) (t : Tile) : Bool := m.testBit t.enc

/-- Source `RiichiFlags` — modelled from the spec's per-player riichi flags. -/
structure RiichiFlags where
  is_active : Bool
  is_ippatsu : Bool
  is_double : Bool
deriving DecidableEq

/-- Source `FuritenFlags` — modelled from the spec's per-player furiten flags. -/
structure FuritenFlags where
  by_discard : Bool
  miss_temporary : Bool
  miss_permanent : Bool
deriving DecidableEq

/-- A discard, both as an action payload and as a discard-pile record —
modelled from the spec. -/
structure Discard where
  tile : Tile
  called_by : Player
  declares_riichi : Bool
  is_tsumokiri : Bool
deriving DecidableEq

/-- Source `StateCore` — modelled from the spec's "Round State (core)" fields. -/
structure StateCore where
  action_player : Player
  seq : Nat
  num_drawn_head : Nat
  num_drawn_tail : Nat
  num_dora_indicators : Nat
  draw : Option Tile
  incoming_meld : Option Meld
  furiten : Quad FuritenFlags
  riichi : Quad RiichiFlags
deriving DecidableEq

/-- Source `State` — the core plus hands, melds and discard piles. -/
structure State where
  core : StateCore
  closed_hands : Quad TileSet37
  melds : Quad (List Meld)
  discards : Quad (List Discard)
deriving DecidableEq

/-- Modelled from the spec: round identity (which seat holds the button,
and the repeat counter). -/
structure RoundId where
  kyoku : Nat
  honba : Nat
deriving DecidableEq

def RoundId.button (r : RoundId) : Player := ⟨r.kyoku % 4, by omega⟩

/-- Modelled from the spec: repeat round, penalty counter incremented. -/
def RoundId.next_honba (r : RoundId) (_renchan : Bool) : RoundId := ⟨r.kyoku, r.honba + 1⟩

/-- Modelled from the spec: advance to the next seat/round, honba reset. -/
def RoundId.next_kyoku (r : RoundId) : RoundId := ⟨r.kyoku + 1, 0⟩

/-- Modelled from the spec: the rule-variant configuration, opaque to the
claims considered here. -/
structure Rules where
  variant : Nat
deriving DecidableEq

/-- Source `RoundBegin` — modelled from the spec: the per-round constants (wall,
pot, starting points, round identity). -/
structure RoundBegin where
  rules : Rules
  round_id : RoundId
  wall : Nat → Tile
  pot : Int
  points : Quad Int

/-- Modelled from the spec: external scoring data attached to a win
candidate; the core only ever rewrites the dora-hit count, the rest is
carried opaquely. -/
structure Scoring where
  dora_hits : Nat
  payload : Nat
deriving DecidableEq

/-- Modelled from the spec: one scoring candidate for a winning hand. -/
structure AgariCandidate where
  scoring : Scoring
deriving DecidableEq

/-- Source `EngineCache` — modelled from the spec: per-player waiting info,
speculative meld, and win candidates. -/
structure EngineCache where
  wait : Quad WaitingInfo
  meld : Quad (Option Meld)
  win : Quad (List AgariCandidate)
deriving DecidableEq

/-- Source `Action` (crate::model) — modelled from the spec's five action kinds. -/
inductive Action where
  | Discard (d : Discard)
  | Ankan (t : Tile)
  | Kakan (t : Tile)
  | TsumoAgari (t : Tile)
  | AbortNineKinds
deriving DecidableEq

/-- Source `Action::tile` — modelled from the spec: the tile committed by the
action, when there is one. -/
def Action.tile : Action → Option Tile
  | .Discard d => some d.tile
  | .Ankan t => some t
  | .Kakan t => some t
  | .TsumoAgari t => some t
  | .AbortNineKinds => none

inductive AgariKind where
  | Tsumo
  | Ron
deriving DecidableEq

inductive AbortReason where
  | NineKinds
  | FourKan
  | FourWind
  | FourRiichi
  | DoubleRon
  | TripleRon
  | WallExhausted
  | NagashiMangan
deriving DecidableEq

/-- Source `Reaction` (crate::model) — modelled from the spec. -/
inductive Reaction where
  | CallChii (t0 t1 : Tile)
  | CallPon (t0 t1 : Tile)
  | CallDaiminkan
  | RonAgari
deriving DecidableEq

/-- Source `ActionResult` (crate::model) — modelled from the spec. -/
inductive ActionResult where
  | Pass
  | CalledBy (p : Player)
  | Daiminkan
  | Agari (k : AgariKind)
  | Abort (r : AbortReason)
deriving DecidableEq

/-- Source `ActionError` (action.rs): the closed taxonomy of rejection causes. -/
inductive ActionError where
  | TsumokiriMismatch (t : Tile) (d : Option Tile)
  | DiscardClosedHandUnderRiichi
  | NoSwapCalling (t : Tile) (m : Meld)
  | TileNotExist (t : Tile)
  | DeclareRiichiAgain
  | DeclareRiichiWithoutPoints
  | DeclareRiichiWithOpenMeld
  | DeclareRiichiWhileNotReady
  | CannotKanOnLastDraw
  | InvalidAnkanUnderRiichi (t : Tile)
  | NotEnoughForAnkan (t : Tile)
  | NoPonForKakan (t : Tile)
  | NotEnoughKindsForNineKinds (n : Nat)
  | NotInitAbortable
  | MustDeclareTsumoAgariOnDraw
  | CannotTsumoAgari
deriving DecidableEq

/-- Source `AgariResult` — modelled from the spec. -/
structure AgariResult where
  winner : Player
  contributor : Player
  liable_player : Player
  points_delta : Quad Int
  details : AgariCandidate
deriving DecidableEq

/-- Source `RoundEnd` — modelled from the spec's round-end resolution record. -/
structure RoundEnd where
  round_result : ActionResult
  pot : Int
  points : Quad Int
  points_delta : Quad Int
  renchan : Bool
  next_round_id : Option RoundId
  agari_result : Quad (Option AgariResult)
deriving DecidableEq

/-- Source `RIICHI_POT` (engine constant, not among the provided sources) —
modelled from the spec: the riichi-stick deposit. -/
def RIICHI_POT : Int := 1000

/-- Modelled from the spec: the number of drawable wall tiles
(`wall::MAX_NUM_DRAWS`). -/
def MAX_NUM_DRAWS : Nat := 70

/-- The external collaborators consumed by the engine (spec section 6:
tile-wall accessor, scoring-candidate generator, irregular-shape detector,
points-distribution function), plus the external scoring/dora helpers —
all modelled from the spec as function parameters. -/
structure Ext where
  detect_irregular : Keys → Option IrregularWait
  agari_candidates : Rules → RoundId → State → WaitingInfo → Action → Player → Player →
    List AgariCandidate
  basic_points : Scoring → Nat
  distribute_points : Rules → RoundId → Bool → Player → Player → Nat → Quad Int
  get_all_tiles : AgariKind → TileSet37 → Tile → List Meld → List Tile
  count_doras : List Tile → Nat → (Nat → Tile) → Bool → Nat
  kan_draw : (Nat → Tile) → Nat → Tile

/-! ## Engine utilities (utils.rs) -/

/-- Source `is_forbidden_swap_call` (utils.rs): whether discarding `discard`
right after calling `meld` would re-form the just-called group. -/
def is_forbidden_swap_call (meld : Meld) (discard : Tile) : Bool :=
  let discard := discard.to_normal
  match meld with
  | .Chii chii =>
    chii.called.to_normal == discard ||
      (chii.dir == 0 && chii.own1.succ == some discard) ||
      (chii.dir == 2 && chii.min.pred == some discard)
  | .Pon pon => pon.called.to_normal == discard
  | _ => false

/-- Source `is_ankan_ok_under_riichi` (utils.rs): a concealed quad under riichi is
allowed only when every remaining decomposition carries the tile as a
complete triplet. -/
def is_ankan_ok_under_riichi (decomps : List RegularWait) (ankan : Tile) : Bool :=
  let ankan := ankan.to_normal
  decomps.all fun decomp =>
    decomp.groups.any fun group => group == HandGroup.Koutsu ankan.enc

/-- Source `num_active_riichi` (utils.rs). -/
def num_active_riichi (state : State) : Nat :=
  (all_players.filter fun p => (state.core.riichi.get p).is_active).length

/-- Source `is_init_abortable` (utils.rs): still within the very first go-around
with no melds. -/
def is_init_abortable (state : State) : Bool :=
  state.core.seq ≤ 3 && (all_players.all fun p => (state.melds.get p).isEmpty)

/-- Source `is_first_chance` (engine helper, not among the provided sources) —
modelled from the spec: "the very first decision point of the round with
no melds yet". -/
def is_first_chance (state : State) : Bool := is_init_abortable state

/-- Source `is_last_draw` (engine helper, not among the provided sources) —
modelled from the spec: the current draw is the final drawable tile. -/
def is_last_draw (state : State) : Bool :=
  state.core.num_drawn_head + state.core.num_drawn_tail == MAX_NUM_DRAWS

/-- Source `calc_wall_exhausted_delta` (utils.rs): the zero-sum redistribution at
wall exhaustion, given each player's waiting status (1 waiting, 0 not). -/
def calc_wall_exhausted_delta (waiting : Quad Nat) : Quad Int :=
  let no_wait : Int := 3000
  let num_waiting : Nat := waiting.q0 + waiting.q1 + waiting.q2 + waiting.q3
  let du : Int × Int :=
    match num_waiting with
    | 1 => (-no_wait / 3, no_wait / 1)
    | 2 => (-no_wait / 2, no_wait / 2)
    | 3 => (-no_wait / 1, no_wait / 3)
    | _ => (0, 0)
  waiting.map fun w => if w > 0 then du.2 else du.1

/-! ## Action validator (action.rs) -/

/-- Source `EngineCache::update_wait_cache` — modelled from the spec: re-derive
the player's Waiting Info from the hand's packed keys. -/
def EngineCache.update_wait_cache (cache : EngineCache) (ct : CTable) (wt : WTable)
    (ext : Ext) (actor : Player) (hand : TileSet37) : EngineCache :=
  { cache with
    wait := cache.wait.set actor
      (WaitingInfo.from_keys ct wt ext.detect_irregular (handKeys hand)) }

/-- Source `check_action` (action.rs): validate one action against the round
state, populating the cache on success.  The source's panics cannot occur
on the paths modelled here; fallible unwraps are guarded exactly as in the
source. -/
def check_action (ct : CTable) (wt : WTable) (ext : Ext) (begin : RoundBegin)
    (state : State) (action : Action) (cache : EngineCache) :
    Except ActionError EngineCache := do
  let actor := state.core.action_player
  let hand := state.closed_hands.get actor
  let under_riichi := (state.core.riichi.get actor).is_active
  match action with
  | .Discard discard => do
    if under_riichi && discard.declares_riichi then
      throw .DeclareRiichiAgain
    if discard.is_tsumokiri then
      if state.core.draw ≠ some discard.tile then
        throw (.TsumokiriMismatch discard.tile state.core.draw)
    else
      if under_riichi then
        throw .DiscardClosedHandUnderRiichi
    if hand.get discard.tile == 0 then
      throw (.TileNotExist discard.tile)
    let hand := hand.dec discard.tile
    let cache := cache.update_wait_cache ct wt ext actor hand
    if discard.declares_riichi then
      if begin.points.get actor < RIICHI_POT then
        throw .DeclareRiichiWithoutPoints
      if (state.melds.get actor).any (fun meld => !meld.isAnkan) then
        throw .DeclareRiichiWithOpenMeld
      if (cache.wait.get actor).waiting_set == 0 then
        throw .DeclareRiichiWhileNotReady
    match state.core.incoming_meld with
    | some meld =>
      if is_forbidden_swap_call meld discard.tile then
        throw (.NoSwapCalling discard.tile meld)
    | none => pure ()
    pure cache
  | .Ankan t => do
    let t := t.to_normal
    if is_last_draw state then
      throw .CannotKanOnLastDraw
    if under_riichi && !is_ankan_ok_under_riichi (cache.wait.get actor).regular t then
      throw (.InvalidAnkanUnderRiichi t)
    match AnkanM.from_hand hand t with
    | some ankan =>
      let hand := ankan.consume_from_hand hand
      let cache := { cache with meld := cache.meld.set actor (some (.Ankan ankan)) }
      pure (cache.update_wait_cache ct wt ext actor hand)
    | none => throw (.NotEnoughForAnkan t)
  | .Kakan added => do
    if is_last_draw state then
      throw .CannotKanOnLastDraw
    match (state.melds.get actor).filterMap
        (fun meld =>
          match meld with
          | .Pon pon =>
            if pon.called.to_normal == added.to_normal then some pon else none
          | _ => none) with
    | [pon] =>
      match KakanM.from_pon_hand pon hand with
      | some kakan =>
        let hand := kakan.consume_from_hand hand
        let cache := { cache with meld := cache.meld.set actor (some (.Kakan kakan)) }
        pure (cache.update_wait_cache ct wt ext actor hand)
      | none => throw (.TileNotExist added)
    | _ => throw (.NoPonForKakan added)
  | .TsumoAgari t => do
    if state.core.draw ≠ some t then
      throw .MustDeclareTsumoAgariOnDraw
    -- After a Daiminkan the cache is stale; rewind the hand by one tile
    -- (the guard above forces `draw = some t`, so the source's
    -- `draw.unwrap()` is exactly `t`).
    let cache :=
      match state.core.incoming_meld with
      | some (.Daiminkan _) =>
        (cache.update_wait_cache ct wt ext actor (hand.dec t))
      | _ => cache
    let candidates :=
      ext.agari_candidates begin.rules begin.round_id state (cache.wait.get actor)
        action actor actor
    if candidates.isEmpty then
      throw .CannotTsumoAgari
    pure { cache with win := cache.win.set actor candidates }
  | .AbortNineKinds => do
    if !is_first_chance state then
      throw .NotInitAbortable
    let n := hand.terminal_kinds
    if n < 9 then
      throw (.NotEnoughKindsForNineKinds n)
    pure cache

/-! ## Small `Except` reduction lemmas used to evaluate the validator -/

theorem except_throw {ε α : Type} (e : ε) : (throw e : Except ε α) = Except.error e := rfl

theorem except_throw_bind {ε α β : Type} (e : ε) (f : α → Except ε β) :
    ((throw e : Except ε α) >>= f) = Except.error e := rfl

theorem except_error_bind {ε α β : Type} (e : ε) (f : α → Except ε β) :
    ((Except.error e : Except ε α) >>= f) = Except.error e := rfl

theorem except_map_throw {ε α β : Type} (g : α → β) (e : ε) :
    (g <$> (throw e : Except ε α)) = Except.error e := rfl

theorem except_pure_bind {ε α β : Type} (a : α) (f : α → Except ε β) :
    ((pure a : Except ε α) >>= f) = f a := rfl

instance {ε α : Type} [DecidableEq ε] [DecidableEq α] : DecidableEq (Except ε α) :=
  fun a b =>
    match a, b with
    | .error e, .error e' => decidable_of_iff (e = e') (by simp)
    | .ok x, .ok y => decidable_of_iff (x = y) (by simp)
    | .error _, .ok _ => isFalse fun h => Except.noConfusion h
    | .ok _, .error _ => isFalse fun h => Except.noConfusion h

/-! ## Concrete engine fixtures -/

/-- Simple concrete instantiation of the external collaborators. -/
def modelExt : Ext where
  detect_irregular := fun _ => none
  agari_candidates := fun _ _ _ _ _ _ _ => []
  basic_points := fun s => s.payload + s.dora_hits
  distribute_points := fun _ _ _ _ _ bp => ⟨Int.ofNat bp, 0, 0, -(Int.ofNat bp)⟩
  get_all_tiles := fun _ _ _ _ => []
  count_doras := fun _ n _ _ => n
  kan_draw := fun w i => w i

def modelBegin : RoundBegin where
  rules := ⟨0⟩
  round_id := ⟨0, 0⟩
  wall := fun _ => Tile.MIN
  pot := 0
  points := Quad.const 25000

def noFlags : RiichiFlags := ⟨false, false, false⟩

def noFuriten : FuritenFlags := ⟨false, false, false⟩

def emptyWaitingInfo : WaitingInfo := ⟨0, [], none⟩

def emptyCache : EngineCache :=
  ⟨Quad.const emptyWaitingInfo, Quad.const none, Quad.const []⟩

/-- A round state whose acting player (seat 0) is under active riichi. -/
def riichiState : State where
  core :=
    { action_player := 0, seq := 6, num_drawn_head := 10, num_drawn_tail := 0,
      num_dora_indicators := 1, draw := some (tile 1), incoming_meld := none,
      furiten := Quad.const noFuriten,
      riichi := ⟨⟨true, false, false⟩, noFlags, noFlags, noFlags⟩ }
  closed_hands := Quad.const ⟨List.replicate 34 1⟩
  melds := Quad.const []
  discards := Quad.const []

/-- The same position, but on the round's final drawable tile. -/
def lastDrawRiichiState : State :=
  { riichiState with
    core := { riichiState.core with num_drawn_head := 66, num_drawn_tail := 4 } }

/-- A cache whose seat-0 decompositions do not all carry a triplet of any
quad tile. -/
def nonTripletCache : EngineCache :=
  { emptyCache with
    wait := Quad.const
      ⟨1 <<< 20, [⟨[.Shuntsu 0], some (tile 9), .Tanki, tile 20, tile 20⟩], none⟩ }

/-! ## Claim theorems: action validator -/

/-- C4 counterexample: with the acting player under riichi and a
discard whose tile (5th kind) differs from the drawn tile (2nd kind), but
flagged as declaring riichi, the validator rejects with
`DeclareRiichiAgain` — not with the commitment-violation cause
`DiscardClosedHandUnderRiichi`.  (A tsumokiri-flagged mismatch likewise
yields `TsumokiriMismatch`.) -/
theorem discard_under_riichi_counterexample :
    (riichiState.core.riichi.get riichiState.core.action_player).is_active = true ∧
    some (tile 4) ≠ riichiState.core.draw ∧
    check_action modelCTable modelWTable modelExt modelBegin riichiState
      (.Discard ⟨tile 4, 0, true, false⟩) emptyCache =
      .error .DeclareRiichiAgain ∧
    ActionError.DeclareRiichiAgain ≠ ActionError.DiscardClosedHandUnderRiichi := by
  refine ⟨by decide, by decide, ?_, by decide⟩
  rfl

/-- C4 (amended): while the acting player is under the round-long
commitment, any discard action that is not flagged tsumokiri and does not
re-declare riichi is rejected with the commitment-violation cause,
regardless of its tile and of the hand's contents. -/
theorem discard_under_riichi_rejected
    (ct : CTable) (wt : WTable) (ext : Ext) (begin : RoundBegin) (state : State)
    (cache : EngineCache) (d : Discard)
    (hr : (state.core.riichi.get state.core.action_player).is_active = true)
    (ht : d.is_tsumokiri = false) (hd : d.declares_riichi = false) :
    check_action ct wt ext begin state (.Discard d) cache =
      .error .DiscardClosedHandUnderRiichi := by
  unfold check_action
  simp [hr, ht, hd, except_throw_bind, except_error_bind, except_map_throw, except_throw]

/-- Closed-form instance of `discard_under_riichi_rejected`: a plain
discard of a tile unequal to the draw (and also absent from the hand)
still rejects with the commitment-violation cause. -/
theorem discard_under_riichi_rejected_witness :
    (riichiState.core.riichi.get riichiState.core.action_player).is_active = true ∧
    check_action modelCTable modelWTable modelExt modelBegin riichiState
      (.Discard ⟨tile 4, 0, false, false⟩) emptyCache =
      .error .DiscardClosedHandUnderRiichi :=
  ⟨by decide,
    discard_under_riichi_rejected modelCTable modelWTable modelExt modelBegin riichiState
      emptyCache ⟨tile 4, 0, false, false⟩ (by decide) (by decide) (by decide)⟩

/-- C5 counterexample: on the final drawable tile, a concealed quad
under riichi whose tile is a complete triplet in none of the cached
decompositions is rejected with `CannotKanOnLastDraw`, not with the
illegal-quad-under-commitment cause. -/
theorem ankan_under_riichi_counterexample :
    (lastDrawRiichiState.core.riichi.get
        lastDrawRiichiState.core.action_player).is_active = true ∧
    is_ankan_ok_under_riichi
      ((nonTripletCache.wait.get lastDrawRiichiState.core.action_player).regular)
      (tile 0) = false ∧
    check_action modelCTable modelWTable modelExt modelBegin lastDrawRiichiState
      (.Ankan (tile 0)) nonTripletCache = .error .CannotKanOnLastDraw ∧
    ActionError.CannotKanOnLastDraw ≠
      ActionError.InvalidAnkanUnderRiichi ((tile 0).to_normal) := by
  refine ⟨by decide, by decide, ?_, by decide⟩
  rfl

/-- C5 (amended): while the acting player is under the round-long
commitment and the draw is not the final drawable tile, a concealed quad
on `t` is accepted only if every Regular Wait in the player's cached
decompositions carries the complete triplet of `t` among its groups, and
when that condition fails the action is rejected with the
illegal-quad-under-commitment cause. -/
theorem ankan_under_riichi_requires_all_triplet
    (ct : CTable) (wt : WTable) (ext : Ext) (begin : RoundBegin) (state : State)
    (cache : EngineCache) (t : Tile)
    (hr : (state.core.riichi.get state.core.action_player).is_active = true)
    (hl : is_last_draw state = false) :
    (∀ cache', check_action ct wt ext begin state (.Ankan t) cache = .ok cache' →
      is_ankan_ok_under_riichi
        ((cache.wait.get state.core.action_player).regular) t.to_normal = true) ∧
    (is_ankan_ok_under_riichi
        ((cache.wait.get state.core.action_player).regular) t.to_normal = false →
      check_action ct wt ext begin state (.Ankan t) cache =
        .error (.InvalidAnkanUnderRiichi t.to_normal)) := by
  constructor
  · intro cache' hok
    by_contra hno
    rw [Bool.not_eq_true] at hno
    rw [show check_action ct wt ext begin state (.Ankan t) cache =
        .error (.InvalidAnkanUnderRiichi t.to_normal) by
      unfold check_action
      simp [hl, hr, hno, except_throw_bind, except_error_bind, except_map_throw, except_throw]] at hok
    exact Except.noConfusion hok
  · intro hno
    unfold check_action
    simp [hl, hr, hno, except_throw_bind, except_error_bind, except_map_throw, except_throw]

/-- Closed-form instance of `ankan_under_riichi_requires_all_triplet`:
away from the last draw, the same quad is rejected with the
illegal-quad-under-commitment cause. -/
theorem ankan_under_riichi_requires_all_triplet_witness :
    (riichiState.core.riichi.get riichiState.core.action_player).is_active = true ∧
    is_last_draw riichiState = false ∧
    is_ankan_ok_under_riichi
      ((nonTripletCache.wait.get riichiState.core.action_player).regular)
      ((tile 0).to_normal) = false ∧
    check_action modelCTable modelWTable modelExt modelBegin riichiState
      (.Ankan (tile 0)) nonTripletCache =
      .error (.InvalidAnkanUnderRiichi ((tile 0).to_normal)) :=
  ⟨by decide, by decide, by decide,
    (ankan_under_riichi_requires_all_triplet modelCTable modelWTable modelExt modelBegin
      riichiState nonTripletCache (tile 0) (by decide) (by decide)).2 (by decide)⟩

/-! ## Claim theorems: wall-exhaustion redistribution -/

/-- C7: for every 0/1 waiting vector over the four players, the
wall-exhaustion redistribution sums to zero; it is identically zero when
none or all four are waiting, and otherwise every waiting player receives
a strictly positive amount and every non-waiting player pays a strictly
negative one. -/
theorem wall_exhausted_delta_props (w : Quad Nat)
    (h0 : w.q0 ≤ 1) (h1 : w.q1 ≤ 1) (h2 : w.q2 ≤ 1) (h3 : w.q3 ≤ 1) :
    (calc_wall_exhausted_delta w).q0 + (calc_wall_exhausted_delta w).q1 +
        (calc_wall_exhausted_delta w).q2 + (calc_wall_exhausted_delta w).q3 = 0 ∧
    (w.q0 + w.q1 + w.q2 + w.q3 = 0 ∨ w.q0 + w.q1 + w.q2 + w.q3 = 4 →
      calc_wall_exhausted_delta w = Quad.const 0) ∧
    (1 ≤ w.q0 + w.q1 + w.q2 + w.q3 → w.q0 + w.q1 + w.q2 + w.q3 ≤ 3 →
      ∀ i : Player, (0 < w.get i → 0 < (calc_wall_exhausted_delta w).get i) ∧
        (w.get i = 0 → (calc_wall_exhausted_delta w).get i < 0)) := by
  rcases w with ⟨a, b, c, d⟩
  interval_cases a <;> interval_cases b <;> interval_cases c <;> interval_cases d <;> decide

/-- Closed-form instance of `wall_exhausted_delta_props` at the vector
where only seat 0 is waiting. -/
theorem wall_exhausted_delta_props_witness :
    (calc_wall_exhausted_delta ⟨1, 0, 0, 0⟩).q0 +
        (calc_wall_exhausted_delta ⟨1, 0, 0, 0⟩).q1 +
        (calc_wall_exhausted_delta ⟨1, 0, 0, 0⟩).q2 +
        (calc_wall_exhausted_delta ⟨1, 0, 0, 0⟩).q3 = 0 ∧
      0 < (calc_wall_exhausted_delta ⟨1, 0, 0, 0⟩).q0 ∧
      (calc_wall_exhausted_delta ⟨1, 0, 0, 0⟩).q1 < 0 := by
  have h := wall_exhausted_delta_props ⟨1, 0, 0, 0⟩
    (by decide) (by decide) (by decide) (by decide)
  refine ⟨h.1, ?_, ?_⟩
  · exact (h.2.2 (by decide) (by decide) 0).1 (by decide)
  · exact (h.2.2 (by decide) (by decide) 1).2 (by decide)

/-! ## Turn transition (step.rs, `next_normal`)

The function is split into its chronological phases, each mirroring one
block of the source; the source's `panic!`/`unwrap` paths are modelled as
`none`. -/

/-- Deferred Kakan/Daiminkan dora reveal plus the sequence increment. -/
def next_normal_pre (state : State) : StateCore :=
  let next := state.core
  let next :=
    match state.core.incoming_meld with
    | some (.Kakan _) => { next with num_dora_indicators := next.num_dora_indicators + 1 }
    | some (.Daiminkan _) => { next with num_dora_indicators := next.num_dora_indicators + 1 }
    | _ => next
  { next with seq := next.seq + 1 }

/-- Advancing the turn after a discard: to the next player with a head-wall
draw when no one called, otherwise to the caller (tail-wall draw for a
kan call, no draw otherwise). -/
def discard_advance (ext : Ext) (begin : RoundBegin) (state : State) (cache : EngineCache)
    (caller : Player) (next : StateCore) : Option StateCore :=
  let actor := state.core.action_player
  if caller == actor then
    some { next with
           action_player := player_succ actor
           incoming_meld := none
           draw := some (begin.wall state.core.num_drawn_head)
           num_drawn_head := next.num_drawn_head + 1 }
  else
    (cache.meld.get caller).map fun meld =>
      if meld.is_kan then
        { next with
          action_player := caller
          incoming_meld := some meld
          draw := some (ext.kan_draw begin.wall state.core.num_drawn_tail)
          num_drawn_tail := next.num_drawn_tail + 1 }
      else
        { next with
          action_player := caller
          incoming_meld := some meld
          draw := none }

/-- The discard block of `next_normal`: riichi flag upkeep, turn advance,
and the discarding player's own furiten recomputation. -/
def next_normal_discard (ext : Ext) (begin : RoundBegin) (state : State)
    (discard : Discard) (action_result : ActionResult) (cache : EngineCache)
    (next : StateCore) : Option StateCore :=
  let actor := state.core.action_player
  let caller :=
    match action_result with
    | .CalledBy c => c
    | _ => actor
  let next :=
    if (state.core.riichi.get actor).is_active then
      { next with
        riichi := next.riichi.set actor
          { (next.riichi.get actor) with is_ippatsu := false } }
    else if discard.declares_riichi then
      { next with riichi := next.riichi.set actor ⟨true, caller == actor, is_first_chance state⟩ }
    else next
  (discard_advance ext begin state cache caller next).map fun next =>
    let next :=
      if !(state.core.furiten.get actor).miss_permanent then
        let discard_set := (state.discards.get actor).foldl
          (fun m dd => m ||| (1 <<< dd.tile.enc)) 0
        let waiting_set := (cache.wait.get actor).waiting_set
        { next with
          furiten := next.furiten.set actor
            { (next.furiten.get actor) with
              by_discard := decide (0 < (discard_set &&& waiting_set)) } }
      else next
    { next with
      furiten := next.furiten.set actor
        { (next.furiten.get actor) with miss_temporary := false } }

/-- The Ankan/Kakan block of `next_normal`: bonus turn, tail-wall draw, and
the immediate dora reveal for a fresh concealed quad. -/
def next_normal_kan (ext : Ext) (begin : RoundBegin) (state : State) (action : Action)
    (cache : EngineCache) (next : StateCore) : Option StateCore :=
  let actor := state.core.action_player
  (cache.meld.get actor).map fun meld =>
    let next :=
      { next with
        action_player := actor
        incoming_meld := some meld
        draw := some (ext.kan_draw begin.wall state.core.num_drawn_tail)
        num_drawn_tail := next.num_drawn_tail + 1 }
    match action with
    | .Ankan _ => { next with num_dora_indicators := next.num_dora_indicators + 1 }
    | _ => next

/-- Source comment: "Any kind of meld will forcefully break any active riichi ippatsu." -/
def clear_ippatsu_on_meld (next : StateCore) : StateCore :=
  if next.incoming_meld.isSome then
    { next with riichi := next.riichi.map fun f => { f with is_ippatsu := false } }
  else next

/-- One other player's furiten update at the end of the turn. -/
def furiten_others_step (state : State) (cache : EngineCache) (action : Action)
    (atile : Tile) (next : StateCore) (other : Player) : StateCore :=
  let f := next.furiten.get other
  if f.miss_permanent then next
  else
    match action with
    | .Ankan _ =>
      match (cache.wait.get other).irregular with
      | some (.ThirteenOrphans _) =>
        { next with
          furiten := next.furiten.set other
            { f with
              miss_temporary := true
              miss_permanent := (state.core.riichi.get other).is_active } }
      | some .ThirteenOrphansAll =>
        { next with
          furiten := next.furiten.set other
            { f with
              miss_temporary := true
              miss_permanent := (state.core.riichi.get other).is_active } }
      | _ => next
    | _ =>
      if maskHas (cache.wait.get other).waiting_set atile then
        { next with
          furiten := next.furiten.set other
            { f with
              miss_temporary := true
              miss_permanent := (state.core.riichi.get other).is_active } }
      else next

/-- End-of-turn furiten upkeep for the three players after the actor. -/
def furiten_others (state : State) (cache : EngineCache) (action : Action) (atile : Tile)
    (actor : Player) (next : StateCore) : StateCore :=
  (other_players_after actor).foldl (furiten_others_step state cache action atile) next

/-- Source `next_normal` (step.rs): the normal end-of-turn transition. -/
def next_normal (ext : Ext) (begin : RoundBegin) (state : State) (action : Action)
    (action_result : ActionResult) (cache : EngineCache) : Option StateCore :=
  let actor := state.core.action_player
  let next := next_normal_pre state
  let stepped : Option StateCore :=
    match action with
    | .Discard d => next_normal_discard ext begin state d action_result cache next
    | .Ankan _ => next_normal_kan ext begin state action cache next
    | .Kakan _ => next_normal_kan ext begin state action cache next
    | .TsumoAgari _ => none
    | .AbortNineKinds => none
  stepped.bind fun next =>
    let next := clear_ippatsu_on_meld next
    match action.tile with
    | some atile => some (furiten_others state cache action atile actor next)
    | none => none

/-! ## Preservation lemmas for the transition phases -/

theorem Quad.get_set {α : Type} (q : Quad α) (i j : Player) (v : α) :
    (q.set i v).get j = if j = i then v else q.get j := by
  rcases i with ⟨iv, hi⟩
  rcases j with ⟨jv, hj⟩
  unfold Quad.get Quad.set
  interval_cases iv <;> interval_cases jv <;>
    simp [Fin.ext_iff, Nat.cast_id, Nat.cast_ofNat] <;>
    rw [if_neg (by decide)]

theorem Quad.get_map {α β : Type} (f : α → β) (q : Quad α) (i : Player) :
    (q.map f).get i = f (q.get i) := by
  unfold Quad.get Quad.map
  split_ifs <;> rfl

theorem next_normal_pre_furiten (state : State) :
    (next_normal_pre state).furiten = state.core.furiten := by
  unfold next_normal_pre
  split <;> rfl

theorem discard_advance_furiten {ext : Ext} {begin : RoundBegin} {state : State}
    {cache : EngineCache} {caller : Player} {next mid : StateCore}
    (h : discard_advance ext begin state cache caller next = some mid) :
    mid.furiten = next.furiten := by
  unfold discard_advance at h
  dsimp only at h
  split at h
  · obtain rfl := Option.some.inj h
    rfl
  · rcases hmeld : cache.meld.get caller with _ | meld

    · rw [hmeld] at h
      exact Option.noConfusion h
    · rw [hmeld] at h
      obtain rfl := Option.some.inj h
      dsimp only
      split <;> rfl

theorem next_normal_discard_furiten_perm {ext : Ext} {begin : RoundBegin} {state : State}
    {discard : Discard} {action_result : ActionResult} {cache : EngineCache}
    {next mid : StateCore}
    (h : next_normal_discard ext begin state discard action_result cache next = some mid)
    (p : Player) :
    (mid.furiten.get p).miss_permanent = (next.furiten.get p).miss_permanent := by
  unfold next_normal_discard at h
  dsimp only at h
  rw [Option.map_eq_some'] at h
  obtain ⟨n2, hadv, rfl⟩ := h
  have hpres : n2.furiten = next.furiten := by
    have := discard_advance_furiten hadv
    rw [this]
    split
    · rfl
    · split <;> rfl
  rw [← hpres]
  set actor := state.core.action_player with hactor
  by_cases hpa : p = actor
  · subst hpa
    split
    · simp [Quad.get_set]
    · simp [Quad.get_set]
  · split <;> simp [Quad.get_set, hpa]

theorem next_normal_kan_fields {ext : Ext} {begin : RoundBegin} {state : State}
    {action : Action} {cache : EngineCache} {next mid : StateCore}
    (h : next_normal_kan ext begin state action cache next = some mid) :
    mid.furiten = next.furiten := by
  unfold next_normal_kan at h
  dsimp only at h
  rw [Option.map_eq_some'] at h
  obtain ⟨meld, _, rfl⟩ := h
  split <;> rfl

theorem clear_ippatsu_on_meld_furiten (next : StateCore) :
    (clear_ippatsu_on_meld next).furiten = next.furiten := by
  unfold clear_ippatsu_on_meld
  split <;> rfl

theorem clear_ippatsu_on_meld_incoming (next : StateCore) :
    (clear_ippatsu_on_meld next).incoming_meld = next.incoming_meld := by
  unfold clear_ippatsu_on_meld
  split <;> rfl

theorem clear_ippatsu_on_meld_spec (next : StateCore)
    (h : next.incoming_meld.isSome = true) (p : Player) :
    ((clear_ippatsu_on_meld next).riichi.get p).is_ippatsu = false := by
  unfold clear_ippatsu_on_meld
  rw [if_pos h]
  rw [Quad.get_map]

theorem furiten_others_step_riichi (state : State) (cache : EngineCache) (action : Action)
    (atile : Tile) (next : StateCore) (other : Player) :
    (furiten_others_step state cache action atile next other).riichi = next.riichi ∧
    (furiten_others_step state cache action atile next other).incoming_meld =
      next.incoming_meld := by
  refine ⟨?_, ?_⟩ <;>
    (unfold furiten_others_step
     dsimp only
     split
     · rfl
     · split <;> first | rfl | (split <;> rfl))

theorem furiten_others_riichi (state : State) (cache : EngineCache) (action : Action)
    (atile : Tile) (actor : Player) (next : StateCore) :
    (furiten_others state cache action atile actor next).riichi = next.riichi ∧
    (furiten_others state cache action atile actor next).incoming_meld =
      next.incoming_meld := by
  unfold furiten_others
  generalize other_players_after actor = l
  induction l generalizing next with
  | nil => exact ⟨rfl, rfl⟩
  | cons a l ih =>
    rw [List.foldl_cons]
    obtain ⟨h1, h2⟩ := ih (furiten_others_step state cache action atile next a)
    obtain ⟨g1, g2⟩ := furiten_others_step_riichi state cache action atile next a
    exact ⟨h1.trans g1, h2.trans g2⟩

theorem furiten_others_step_sticky (state : State) (cache : EngineCache) (action : Action)
    (atile : Tile) (next : StateCore) (other p : Player)
    (hp : (next.furiten.get p).miss_permanent = true) :
    ((furiten_others_step state cache action atile next other).furiten.get p).miss_permanent =
      true := by
  unfold furiten_others_step
  dsimp only
  by_cases hperm : (next.furiten.get other).miss_permanent = true
  · rw [if_pos hperm]
    exact hp
  · rw [if_neg hperm]
    have hpo : p ≠ other := fun he => hperm (he ▸ hp)
    cases action with
    | Ankan t =>
      cases hirr : (cache.wait.get other).irregular with
      | none => exact hp
      | some irr =>
        cases irr with
        | ThirteenOrphans tt =>
          dsimp only
          rw [Quad.get_set, if_neg hpo]
          exact hp
        | ThirteenOrphansAll =>
          dsimp only
          rw [Quad.get_set, if_neg hpo]
          exact hp
        | SevenPairs tt => exact hp
    | Discard d =>
      dsimp only
      split
      · rw [Quad.get_set, if_neg hpo]
        exact hp
      · exact hp
    | Kakan t =>
      dsimp only
      split
      · rw [Quad.get_set, if_neg hpo]
        exact hp
      · exact hp
    | TsumoAgari t =>
      dsimp only
      split
      · rw [Quad.get_set, if_neg hpo]
        exact hp
      · exact hp
    | AbortNineKinds =>
      dsimp only
      split
      · rw [Quad.get_set, if_neg hpo]
        exact hp
      · exact hp

theorem furiten_others_sticky (state : State) (cache : EngineCache) (action : Action)
    (atile : Tile) (actor : Player) (next : StateCore) (p : Player)
    (hp : (next.furiten.get p).miss_permanent = true) :
    ((furiten_others state cache action atile actor next).furiten.get p).miss_permanent =
      true := by
  unfold furiten_others
  generalize other_players_after actor = l
  induction l generalizing next with
  | nil => exact hp
  | cons a l ih =>
    rw [List.foldl_cons]
    exact ih _ (furiten_others_step_sticky state cache action atile next a p hp)

/-! ## Claim theorems: turn transition -/

/-- C8: whenever the normal turn transition returns a state with an
incoming meld present, every player's single-turn-immunity (ippatsu) flag
is false in that state. -/
theorem incoming_meld_clears_all_ippatsu
    (ext : Ext) (begin : RoundBegin) (state : State) (action : Action)
    (action_result : ActionResult) (cache : EngineCache) (ns : StateCore)
    (h : next_normal ext begin state action action_result cache = some ns)
    (hm : ns.incoming_meld.isSome = true) :
    ∀ p : Player, (ns.riichi.get p).is_ippatsu = false := by
  intro p
  unfold next_normal at h
  dsimp only at h
  rw [Option.bind_eq_some] at h
  obtain ⟨mid, _, htail⟩ := h
  rcases hat : action.tile with _ | atile
  · rw [hat] at htail
    exact Option.noConfusion htail
  · rw [hat] at htail
    obtain rfl := Option.some.inj htail
    obtain ⟨hr, hi⟩ := furiten_others_riichi state cache action atile
      state.core.action_player (clear_ippatsu_on_meld mid)
    rw [hr]
    rw [hi, clear_ippatsu_on_meld_incoming] at hm
    exact clear_ippatsu_on_meld_spec mid hm p

/-- C10: the permanent-miss furiten flag is never cleared by a normal
turn transition: if it is set for a player in the prior state, it is still
set in the returned state. -/
theorem miss_permanent_is_sticky
    (ext : Ext) (begin : RoundBegin) (state : State) (action : Action)
    (action_result : ActionResult) (cache : EngineCache) (ns : StateCore)
    (h : next_normal ext begin state action action_result cache = some ns)
    (p : Player)
    (hp : (state.core.furiten.get p).miss_permanent = true) :
    (ns.furiten.get p).miss_permanent = true := by
  unfold next_normal at h
  dsimp only at h
  rw [Option.bind_eq_some] at h
  obtain ⟨mid, hmid, htail⟩ := h
  have hmidp : (mid.furiten.get p).miss_permanent = true := by
    rcases action with d | t | t | t | _
    · rw [next_normal_discard_furiten_perm hmid p, next_normal_pre_furiten state]
      exact hp
    · rw [next_normal_kan_fields hmid, next_normal_pre_furiten state]
      exact hp
    · rw [next_normal_kan_fields hmid, next_normal_pre_furiten state]
      exact hp
    · exact Option.noConfusion hmid
    · exact Option.noConfusion hmid
  rcases hat : action.tile with _ | atile
  · rw [hat] at htail
    exact Option.noConfusion htail
  · rw [hat] at htail
    obtain rfl := Option.some.inj htail
    apply furiten_others_sticky
    rw [clear_ippatsu_on_meld_furiten]
    exact hmidp

/-- A cache carrying a speculative concealed-quad meld for every seat. -/
def kanCache : EngineCache :=
  { emptyCache with meld := Quad.const (some (.Ankan ⟨tile 0⟩)) }

/-- The state reached from `riichiState` by the concealed-quad transition. -/
def kanNextCore : StateCore :=
  { action_player := 0, seq := 7, num_drawn_head := 10, num_drawn_tail := 1,
    num_dora_indicators := 2, draw := some (tile 0),
    incoming_meld := some (.Ankan ⟨tile 0⟩),
    furiten := Quad.const noFuriten,
    riichi := ⟨⟨true, false, false⟩, noFlags, noFlags, noFlags⟩ }

/-- Closed-form instance of `incoming_meld_clears_all_ippatsu`: a concealed
quad's bonus-turn state carries an incoming meld, and ippatsu is cleared. -/
theorem incoming_meld_clears_all_ippatsu_witness :
    next_normal modelExt modelBegin riichiState (.Ankan (tile 0)) .Pass kanCache =
        some kanNextCore ∧
      kanNextCore.incoming_meld.isSome = true ∧
      (kanNextCore.riichi.get 0).is_ippatsu = false :=
  ⟨by decide, by decide,
    incoming_meld_clears_all_ippatsu modelExt modelBegin riichiState (.Ankan (tile 0)) .Pass
      kanCache kanNextCore (by decide) (by decide) 0⟩

/-- Source `riichiState` with seat 1 already in permanent-miss furiten. -/
def permMissState : State :=
  { riichiState with
    core := { riichiState.core with
              furiten := ⟨noFuriten, ⟨false, false, true⟩, noFuriten, noFuriten⟩ } }

def permMissNextCore : StateCore :=
  { kanNextCore with
    furiten := ⟨noFuriten, ⟨false, false, true⟩, noFuriten, noFuriten⟩ }

/-- Closed-form instance of `miss_permanent_is_sticky`: seat 1's
permanent-miss flag survives the transition. -/
theorem miss_permanent_is_sticky_witness :
    next_normal modelExt modelBegin permMissState (.Ankan (tile 0)) .Pass kanCache =
        some permMissNextCore ∧
      (permMissState.core.furiten.get 1).miss_permanent = true ∧
      (permMissNextCore.furiten.get 1).miss_permanent = true :=
  ⟨by decide, by decide,
    miss_permanent_is_sticky modelExt modelBegin permMissState (.Ankan (tile 0)) .Pass
      kanCache permMissNextCore (by decide) 1 (by decide)⟩

/-! ## Win resolution (step.rs, `next_agari` / `finalize_agari`) -/

def quadAdd (a b : Quad Int) : Quad Int :=
  ⟨a.q0 + b.q0, a.q1 + b.q1, a.q2 + b.q2, a.q3 + b.q3⟩

/-- Rust's `Iterator::max_by_key`: the last element with the maximal key. -/
def max_by_key (f : AgariCandidate → Nat) : List AgariCandidate → Option AgariCandidate
  | [] => none
  | c :: rest => some (rest.foldl (fun b x => if f b ≤ f x then x else b) c)

/-- The deferred Kakan/Daiminkan dora indicator owed from the previous
turn (revealed here only for a Ron). -/
def deferred_dora (state : State) : Nat :=
  match state.core.incoming_meld with
  | some (.Kakan _) => 1
  | some (.Daiminkan _) => 1
  | _ => 0

/-- Source `finalize_agari` (step.rs): evaluate one winner's result — recount dora,
reselect the best candidate under the final dora count, distribute the
points, and award the pot when `take_pot`.  `none` models the source's
panic on an empty candidate list. -/
def finalize_agari (ext : Ext) (begin : RoundBegin) (state : State) (cache : EngineCache)
    (agari_kind : AgariKind) (take_pot : Bool) (extra_dora_indicator : Nat)
    (winner contributor : Player) (winning_tile : Tile) : Option AgariResult :=
  let all_tiles := ext.get_all_tiles agari_kind (state.closed_hands.get winner)
    winning_tile (state.melds.get winner)
  let dora_hits := ext.count_doras all_tiles
    (state.core.num_dora_indicators + extra_dora_indicator) begin.wall
    (state.core.riichi.get winner).is_active
  (max_by_key (fun cand => ext.basic_points { cand.scoring with dora_hits := dora_hits })
      (cache.win.get winner)).map fun best0 =>
    let best := { best0 with scoring := { best0.scoring with dora_hits := dora_hits } }
    let delta := ext.distribute_points begin.rules begin.round_id take_pot winner
      contributor (ext.basic_points best.scoring)
    let delta :=
      if take_pot then
        delta.set winner
          (delta.get winner + begin.pot + RIICHI_POT * (num_active_riichi state : Int))
      else delta
    { winner := winner
      contributor := contributor
      liable_player := winner
      points_delta := delta
      details := best }

/-- One iteration of the Ron loop in `next_agari`: evaluate a claiming
player's result, accumulate their delta, and drop the pot flag. -/
def ron_fold_step (ext : Ext) (begin : RoundBegin) (state : State) (cache : EngineCache)
    (extra : Nat) (wtile : Tile) (contributor : Player)
    (reactions : Quad (Option Reaction))
    (acc : Option (Quad Int × Bool × Quad (Option AgariResult))) (winner : Player) :
    Option (Quad Int × Bool × Quad (Option AgariResult)) :=
  match acc with
  | none => none
  | some (delta, take_pot, agari) =>
    match reactions.get winner with
    | some .RonAgari =>
      (finalize_agari ext begin state cache .Ron take_pot extra winner contributor
          wtile).map
        fun one => (quadAdd delta one.points_delta, false, agari.set winner (some one))
    | _ => some (delta, take_pot, agari)

/-- Source `next_agari` (step.rs): terminal win resolution.  The source's unwraps
(no drawn tile for a Tsumo, no committed tile for a Ron, an empty
candidate list) are modelled as `none`. -/
def next_agari (ext : Ext) (begin : RoundBegin) (state : State) (action : Action)
    (reactions : Quad (Option Reaction)) (agari_kind : AgariKind)
    (cache : EngineCache) : Option RoundEnd :=
  let extra := deferred_dora state
  let resOpt : Option (Quad Int × Quad (Option AgariResult)) :=
    match agari_kind with
    | .Tsumo =>
      let winner := state.core.action_player
      (state.core.draw).bind fun winning_tile =>
        (finalize_agari ext begin state cache .Tsumo true 0 winner winner
            winning_tile).map
          fun one =>
            (one.points_delta,
              (Quad.const (none : Option AgariResult)).set winner (some one))
    | .Ron =>
      let contributor := state.core.action_player
      (action.tile).bind fun winning_tile =>
        ((other_players_after contributor).foldl
            (ron_fold_step ext begin state cache extra winning_tile contributor reactions)
            (some (Quad.const 0, true, Quad.const none))).map
          fun r => (r.1, r.2.2)
  resOpt.map
    fun res =>
      let points := quadAdd begin.points res.1
      let renchan := (res.2.get begin.round_id.button).isSome
      { round_result := .Agari agari_kind
        pot := 0
        points := points
        points_delta := res.1
        renchan := renchan
        next_round_id :=
          if renchan then some (begin.round_id.next_honba true)
          else some begin.round_id.next_kyoku
        agari_result := res.2 }

/-- Whether a seat claims the Ron. -/
def isRonClaim (reactions : Quad (Option Reaction)) (w : Player) : Bool :=
  reactions.get w == some .RonAgari

/-! ## The Ron loop's invariant -/

theorem quadAdd_get (a b : Quad Int) (i : Player) :
    (quadAdd a b).get i = a.get i + b.get i := by
  rcases i with ⟨iv, hi⟩
  unfold quadAdd Quad.get
  interval_cases iv <;> simp

theorem ron_fold_step_none (ext : Ext) (begin : RoundBegin) (state : State)
    (cache : EngineCache) (extra : Nat) (wtile : Tile) (contributor : Player)
    (reactions : Quad (Option Reaction)) (w : Player) :
    ron_fold_step ext begin state cache extra wtile contributor reactions none w =
      none := rfl

theorem ron_fold_none (ext : Ext) (begin : RoundBegin) (state : State)
    (cache : EngineCache) (extra : Nat) (wtile : Tile) (contributor : Player)
    (reactions : Quad (Option Reaction)) (L : List Player) :
    L.foldl (ron_fold_step ext begin state cache extra wtile contributor reactions)
      none = none := by
  induction L with
  | nil => rfl
  | cons a L ih =>
    rw [List.foldl_cons, ron_fold_step_none]
    exact ih

theorem ron_fold_step_claim {ext : Ext} {begin : RoundBegin} {state : State}
    {cache : EngineCache} {extra : Nat} {wtile : Tile} {contributor : Player}
    {reactions : Quad (Option Reaction)} {w : Player}
    (h : isRonClaim reactions w = true)
    (delta : Quad Int) (tp : Bool) (agari : Quad (Option AgariResult)) :
    ron_fold_step ext begin state cache extra wtile contributor reactions
        (some (delta, tp, agari)) w =
      (finalize_agari ext begin state cache .Ron tp extra w contributor wtile).map
        fun one => (quadAdd delta one.points_delta, false, agari.set w (some one)) := by
  have hw : reactions.get w = some .RonAgari := eq_of_beq h
  unfold ron_fold_step
  rw [hw]

theorem ron_fold_step_noclaim {ext : Ext} {begin : RoundBegin} {state : State}
    {cache : EngineCache} {extra : Nat} {wtile : Tile} {contributor : Player}
    {reactions : Quad (Option Reaction)} {w : Player}
    (h : isRonClaim reactions w = false)
    (delta : Quad Int) (tp : Bool) (agari : Quad (Option AgariResult)) :
    ron_fold_step ext begin state cache extra wtile contributor reactions
        (some (delta, tp, agari)) w = some (delta, tp, agari) := by
  unfold ron_fold_step
  rcases hw : reactions.get w with _ | r
  · rfl
  · cases r
    · rfl
    · rfl
    · rfl
    · exfalso
      unfold isRonClaim at h
      rw [hw] at h
      simp at h

/-- The Ron loop's invariant: one stored result per claimant in list
order, the pot flag consumed by the first claimant, the delta accumulating
every stored result. -/
theorem ron_fold_spec (ext : Ext) (begin : RoundBegin) (state : State)
    (cache : EngineCache) (extra : Nat) (wtile : Tile) (contributor : Player)
    (reactions : Quad (Option Reaction)) :
    ∀ (L : List Player) (delta0 : Quad Int) (tp0 : Bool)
      (agari0 : Quad (Option AgariResult)),
      L.Nodup → (∀ w ∈ L, agari0.get w = none) →
      ∀ (delta1 : Quad Int) (tp1 : Bool) (agari1 : Quad (Option AgariResult)),
        L.foldl (ron_fold_step ext begin state cache extra wtile contributor reactions)
          (some (delta0, tp0, agari0)) = some (delta1, tp1, agari1) →
        (∀ w ∈ L, isRonClaim reactions w = true →
          agari1.get w =
            finalize_agari ext begin state cache .Ron
              (tp0 && ((L.filter (isRonClaim reactions)).head? == some w)) extra w
              contributor wtile ∧
          (agari1.get w).isSome = true) ∧
        (∀ w ∈ L, isRonClaim reactions w = false → agari1.get w = agari0.get w) ∧
        (∀ w, w ∉ L → agari1.get w = agari0.get w) ∧
        (∀ i : Player, delta1.get i = delta0.get i +
          ((L.filter (isRonClaim reactions)).map
            (fun w =>
              match agari1.get w with
              | some r => r.points_delta.get i
              | none => 0)).sum) := by
  intro L
  induction L with
  | nil =>
    intro delta0 tp0 agari0 _ _ delta1 tp1 agari1 h
    rw [List.foldl_nil] at h
    simp only [Option.some.injEq, Prod.mk.injEq] at h
    obtain ⟨rfl, rfl, rfl⟩ := h
    refine ⟨?_, ?_, ?_, ?_⟩ <;> simp
  | cons a L ih =>
    intro delta0 tp0 agari0 hnd h0 delta1 tp1 agari1 h
    obtain ⟨ha, hndL⟩ := List.nodup_cons.mp hnd
    rw [List.foldl_cons] at h
    by_cases hc : isRonClaim reactions a = true
    · rw [ron_fold_step_claim hc] at h
      cases hf : finalize_agari ext begin state cache .Ron tp0 extra a contributor
          wtile with
      | none =>
        rw [hf, Option.map_none', ron_fold_none] at h
        exact Option.noConfusion h
      | some one =>
        rw [hf, Option.map_some'] at h
        have h0' : ∀ w ∈ L, (agari0.set a (some one)).get w = none := by
          intro w hw
          have hwa : ¬(w = a) := by
            intro he
            subst he
            exact ha hw
          rw [Quad.get_set, if_neg hwa]
          exact h0 w (List.mem_cons_of_mem a hw)
        obtain ⟨ihA, ihB, ihC, ihD⟩ := ih _ _ _ hndL h0' _ _ _ h
        have hga : agari1.get a = some one := by
          rw [ihC a ha, Quad.get_set, if_pos rfl]
        have hfilter : (a :: L).filter (isRonClaim reactions) =
            a :: L.filter (isRonClaim reactions) := by
          rw [List.filter_cons, if_pos hc]
        refine ⟨?_, ?_, ?_, ?_⟩
        · intro w hw hcw
          rcases List.mem_cons.mp hw with rfl | hwL
          · rw [hga, hfilter]
            simp only [List.head?_cons, beq_self_eq_true, Bool.and_true]
            exact ⟨hf.symm, rfl⟩
          · have hne : ((some a : Option Player) == some w) = false := by
              rw [beq_eq_false_iff_ne]
              intro he
              exact ha ((Option.some.inj he) ▸ hwL)
            obtain ⟨e1, e2⟩ := ihA w hwL hcw
            rw [hfilter]
            simp only [List.head?_cons, hne, Bool.and_false]
            rw [Bool.false_and] at e1
            exact ⟨e1, e2⟩
        · intro w hw hcw
          rcases List.mem_cons.mp hw with rfl | hwL
          · rw [hcw] at hc
            exact Bool.noConfusion hc
          · have hwa : ¬(w = a) := by
              intro he
              subst he
              exact ha hwL
            rw [ihB w hwL hcw, Quad.get_set, if_neg hwa]
        · intro w hw
          have hwa : w ≠ a := fun he => hw (he ▸ List.mem_cons_self a L)
          have hwL : w ∉ L := fun hx => hw (List.mem_cons_of_mem a hx)
          rw [ihC w hwL, Quad.get_set, if_neg hwa]
        · intro i
          rw [hfilter]
          simp only [List.map_cons, List.sum_cons, hga]
          have hD := ihD i
          rw [quadAdd_get] at hD
          omega
    · rw [Bool.not_eq_true] at hc
      rw [ron_fold_step_noclaim hc] at h
      have h0' : ∀ w ∈ L, agari0.get w = none :=
        fun w hw => h0 w (List.mem_cons_of_mem a hw)
      obtain ⟨ihA, ihB, ihC, ihD⟩ := ih _ _ _ hndL h0' _ _ _ h
      have hfilter : (a :: L).filter (isRonClaim reactions) =
          L.filter (isRonClaim reactions) := by
        rw [List.filter_cons, if_neg (by simp [hc])]
      refine ⟨?_, ?_, ?_, ?_⟩
      · intro w hw hcw
        rcases List.mem_cons.mp hw with rfl | hwL
        · rw [hcw] at hc
          exact Bool.noConfusion hc
        · rw [hfilter]
          exact ihA w hwL hcw
      · intro w hw hcw
        rcases List.mem_cons.mp hw with rfl | hwL
        · exact ihC _ ha
        · exact ihB w hwL hcw
      · intro w hw
        exact ihC w (fun hx => hw (List.mem_cons_of_mem a hx))
      · intro i
        rw [hfilter]
        exact ihD i

theorem Quad.get_const {α : Type} (v : α) (i : Player) : (Quad.const v).get i = v := by
  unfold Quad.const Quad.get
  split_ifs <;> rfl

theorem other_players_after_nodup (p : Player) : (other_players_after p).Nodup := by
  unfold other_players_after
  refine List.nodup_cons.mpr ⟨?_, List.nodup_cons.mpr ⟨?_, List.nodup_singleton _⟩⟩
  · intro hmem
    rcases List.mem_cons.mp hmem with he | hmem2
    · exact absurd (add_right_cancel he) (by decide)
    · exact absurd (add_right_cancel (List.mem_singleton.mp hmem2)) (by decide)
  · intro hmem
    exact absurd (add_right_cancel (List.mem_singleton.mp hmem)) (by decide)

/-- C6: in an opponent-triggered (Ron) resolution, exactly one result
is stored per claiming player among the three seats in turn order after
the contributor; each claimant's result is the `finalize_agari` evaluation
whose pot flag is set exactly for the turn-order-first claimant (so the
shared pot, riichi deposits included, goes only to that claimant); and the
resulting per-seat point delta is the sum of the individual claimants'
deltas. -/
theorem ron_one_result_per_claimant_and_delta_sums
    (ext : Ext) (begin : RoundBegin) (state : State) (action : Action)
    (reactions : Quad (Option Reaction)) (cache : EngineCache) (endr : RoundEnd)
    (wtile : Tile) (hat : action.tile = some wtile)
    (h : next_agari ext begin state action reactions .Ron cache = some endr) :
    (∀ w : Player, (endr.agari_result.get w).isSome = true ↔
      (w ∈ other_players_after state.core.action_player ∧
        isRonClaim reactions w = true)) ∧
    (∀ w ∈ other_players_after state.core.action_player,
      isRonClaim reactions w = true →
      endr.agari_result.get w =
        finalize_agari ext begin state cache .Ron
          (((other_players_after state.core.action_player).filter
              (isRonClaim reactions)).head? == some w)
          (deferred_dora state) w state.core.action_player wtile) ∧
    (∀ i : Player, endr.points_delta.get i =
      (((other_players_after state.core.action_player).filter
          (isRonClaim reactions)).map
        (fun w =>
          match endr.agari_result.get w with
          | some r => r.points_delta.get i
          | none => 0)).sum) := by
  unfold next_agari at h
  dsimp only at h
  rw [hat] at h
  dsimp only [Option.bind] at h
  rw [Option.map_eq_some'] at h
  obtain ⟨res, hres1, hres2⟩ := h
  rw [Option.map_eq_some'] at hres1
  obtain ⟨trip, htrip, hres⟩ := hres1
  obtain ⟨d1, t1, a1⟩ := trip
  obtain rfl : (d1, a1) = res := hres
  obtain rfl := hres2
  obtain ⟨ihA, ihB, ihC, ihD⟩ :=
    ron_fold_spec ext begin state cache (deferred_dora state) wtile
      state.core.action_player reactions
      (other_players_after state.core.action_player) (Quad.const 0) true
      (Quad.const none)
      (other_players_after_nodup state.core.action_player)
      (fun w _ => Quad.get_const none w) d1 t1 a1 htrip
  refine ⟨?_, ?_, ?_⟩ <;> dsimp only
  · intro w
    constructor
    · intro hs
      by_cases hmem : w ∈ other_players_after state.core.action_player
      · refine ⟨hmem, ?_⟩
        by_contra hcl
        rw [Bool.not_eq_true] at hcl
        rw [ihB w hmem hcl, Quad.get_const] at hs
        exact Bool.noConfusion hs
      · rw [ihC w hmem, Quad.get_const] at hs
        exact absurd hs Bool.noConfusion
    · rintro ⟨hmem, hcl⟩
      exact (ihA w hmem hcl).2
  · intro w hmem hcl
    have hone := (ihA w hmem hcl).1
    rw [Bool.true_and] at hone
    exact hone
  · intro i
    have hD := ihD i
    rw [Quad.get_const] at hD
    rw [hD]
    omega

/-- A cache with one win candidate for every seat. -/
def ronCache : EngineCache := { emptyCache with win := Quad.const [⟨⟨0, 100⟩⟩] }

/-- Seats 1 and 2 claim the Ron. -/
def ronReactions : Quad (Option Reaction) := ⟨none, some .RonAgari, some .RonAgari, none⟩

/-- The round end reached by the double-Ron resolution from `riichiState`:
the first claimant (seat 1) alone receives the riichi-stick deposit. -/
def ronEnd : RoundEnd :=
  { round_result := .Agari .Ron
    pot := 0
    points := ⟨25202, 26000, 25000, 24798⟩
    points_delta := ⟨202, 1000, 0, -202⟩
    renchan := false
    next_round_id := some ⟨1, 0⟩
    agari_result := ⟨none,
      some ⟨1, 0, 1, ⟨101, 1000, 0, -101⟩, ⟨⟨1, 100⟩⟩⟩,
      some ⟨2, 0, 2, ⟨101, 0, 0, -101⟩, ⟨⟨1, 100⟩⟩⟩,
      none⟩ }

/-- Closed-form instance of
`ron_one_result_per_claimant_and_delta_sums` at a concrete double Ron. -/
theorem ron_one_result_per_claimant_and_delta_sums_witness :
    next_agari modelExt modelBegin riichiState (.Discard ⟨tile 4, 0, false, false⟩)
        ronReactions .Ron ronCache = some ronEnd ∧
    (ronEnd.agari_result.get 1).isSome = true ∧
    (ronEnd.agari_result.get 0).isSome = false ∧
    ronEnd.points_delta.get 3 =
      (((other_players_after riichiState.core.action_player).filter
          (isRonClaim ronReactions)).map
        (fun w =>
          match ronEnd.agari_result.get w with
          | some r => r.points_delta.get 3
          | none => 0)).sum := by
  have h : next_agari modelExt modelBegin riichiState
      (.Discard ⟨tile 4, 0, false, false⟩) ronReactions .Ron ronCache = some ronEnd := by
    decide
  have main := ron_one_result_per_claimant_and_delta_sums modelExt modelBegin riichiState
    (.Discard ⟨tile 4, 0, false, false⟩) ronReactions ronCache ronEnd (tile 4) rfl h
  exact ⟨h, (main.1 1).mpr ⟨by decide, by decide⟩, by decide, main.2.2 3⟩

end Riichi
